import Mathlib

/-!
Verification of the apyxl Rust-syntax parser (`src/apyxl/src/parser/rust.rs`)
and the output buffer (`src/apyxl/src/output/buffer.rs`).

The parser in the source is built from chumsky combinators over `&str`.
Chumsky combinators are deterministic PEG-style: a parser either fails
(consuming nothing observable, since failed alternatives are rewound) or
succeeds with a value and a suffix of the input left over.  We embed a
parser as `List Char → Option (α × List Char)`.  Greedy repetition is
embedded with explicit fuel (the input length bounds the iteration count,
since every repeated element of this grammar consumes at least one
character on success), so every definition is a computable structural
recursion that the kernel can evaluate.
-/

namespace Apyxl

/-- Shorthand: the character list of a string literal. -/
def strL (s : String) : List Char := s.toList

/-- A deterministic parser over characters: `none` is failure (no input
consumed — chumsky rewinds failed alternatives), `some (a, r)` is success
with value `a` and remaining input `r`. -/
abbrev P (α : Type) : Type := List Char → Option (α × List Char)

/-- chumsky `.map`. -/
def pMap (f : α → β) (p : P α) : P β := fun s =>
  match p s with
  | none => none
  | some (a, r) => some (f a, r)

/-- chumsky `.then`: sequence, keeping both values. -/
def pThen (p : P α) (q : P β) : P (α × β) := fun s =>
  match p s with
  | none => none
  | some (a, r) =>
    match q r with
    | none => none
    | some (b, r2) => some ((a, b), r2)

/-- chumsky `.ignore_then`. -/
def pIgnoreThen (p : P α) (q : P β) : P β := fun s =>
  match p s with
  | none => none
  | some (_, r) => q r

/-- chumsky `.then_ignore`. -/
def pThenIgnore (p : P α) (q : P β) : P α := fun s =>
  match p s with
  | none => none
  | some (a, r) =>
    match q r with
    | none => none
    | some (_, r2) => some (a, r2)

/-- chumsky `.or` / binary `choice`: ordered choice with rewind. -/
def pOrElse (p q : P α) : P α := fun s =>
  match p s with
  | some r => some r
  | none => q s

/-- chumsky `.or_not`: never fails, no consumption on inner failure. -/
def pOpt (p : P α) : P (Option α) := fun s =>
  match p s with
  | some (a, r) => some (some a, r)
  | none => some (none, s)

/-- Whitespace as chumsky's `.padded()` sees it. -/
def wsChar (c : Char) : Bool := c.isWhitespace

/-- Drop leading whitespace. -/
def dropWs (s : List Char) : List Char := s.dropWhile fun c => wsChar c

/-- chumsky `.padded()`: skip whitespace on both sides. -/
def pPadded (p : P α) : P α := fun s =>
  match p (dropWs s) with
  | none => none
  | some (a, r) => some (a, dropWs r)

/-- chumsky `just(c)` for a single character. -/
def pChar (c : Char) : P Unit := fun s =>
  match s with
  | [] => none
  | d :: r => if d = c then some ((), r) else none

/-- chumsky `just(s)` for a literal string. -/
def pStr : List Char → P Unit := fun k s =>
  match k, s with
  | [], rest => some ((), rest)
  | _ :: _, [] => none
  | a :: kt, b :: st => if b = a then pStr kt st else none

/-- chumsky `end()`. -/
def pEnd : P Unit := fun s =>
  match s with
  | [] => some ((), [])
  | _ :: _ => none

/-- Does `pre` occur at the start of `s`? -/
def startsWithL : List Char → List Char → Bool := fun pre s =>
  match pre, s with
  | [], _ => true
  | _ :: _, [] => false
  | a :: pt, b :: st => b = a && startsWithL pt st

/-- Greedy repetition with fuel.  Every repeated element of this grammar
consumes at least one character on success, so fuel = input length is
always enough; chumsky's `repeated` stops at the first failing element
(which is rewound). -/
def repAux (p : P α) : Nat → List Char → (List α × List Char)
  | 0, s => ([], s)
  | n + 1, s =>
    match p s with
    | none => ([], s)
    | some (a, r) =>
      let x := repAux p n r
      (a :: x.1, x.2)

/-- chumsky `.repeated().collect()`. -/
def pRepeated (p : P α) : P (List α) := fun s => some (repAux p s.length s)

/-- Loop of `(sep, item)` pairs with full rewind when the pair fails.
Mirrors the item loop of chumsky's `separated_by`. -/
def sepAux (p : P α) (sep : P Unit) : Nat → List Char → (List α × List Char)
  | 0, s => ([], s)
  | n + 1, s =>
    match sep s with
    | none => ([], s)
    | some (_, r1) =>
      match p r1 with
      | none => ([], s)
      | some (a, r2) =>
        let x := sepAux p sep n r2
        (a :: x.1, x.2)

/-- chumsky `.separated_by(sep).allow_trailing().collect()`: zero or more
items separated by `sep`, with one optional trailing separator. -/
def pSepTrail (p : P α) (sep : P Unit) : P (List α) := fun s =>
  match p s with
  | none => some ([], s)
  | some (a, r) =>
    let x := sepAux p sep r.length r
    match sep x.2 with
    | some (_, r3) => some (a :: x.1, r3)
    | none => some (a :: x.1, x.2)

/-- `sep (item)*` without trailing, at least one item already consumed by
the caller — the loop of `separated_by(..).at_least(1)` with no
`allow_trailing` (used by `entity_id` and `use_decl`). -/
def pDelim (o : P Unit) (c : P Unit) (p : P α) : P α :=
  pIgnoreThen o (pThenIgnore p c)

/-- chumsky `text::ident()`: `[a-zA-Z_][a-zA-Z0-9_]*` (all grammar text in
this repository is ASCII). -/
def identStart (c : Char) : Bool := c.isAlpha || c = '_'

def identChar (c : Char) : Bool := c.isAlphanum || c = '_'

def identP : P (List Char) := fun s =>
  match s with
  | [] => none
  | c :: t =>
    if identStart c then some (c :: t.takeWhile identChar, t.dropWhile identChar)
    else none

/-- chumsky `text::keyword(k)`: parse a full identifier and require it to
equal `k` (so `struct` does not match a prefix of `structX`). -/
def pKeyword (k : List Char) : P Unit := fun s =>
  match identP s with
  | none => none
  | some (w, r) => if w = k then some ((), r) else none

/-- chumsky `text::whitespace().at_least(1)`: one or more whitespace
characters, maximal munch. -/
def ws1 : P Unit := fun s =>
  match s with
  | [] => none
  | c :: t => if wsChar c then some ((), t.dropWhile fun d => wsChar d) else none

/-- The opening brace character. -/
def lbrace : Char := Char.ofNat 123

/-- The closing brace character. -/
def rbrace : Char := Char.ofNat 125

/-! ## Data model (`model` crate, as used by `parser/rust.rs`) -/

/-- `model::EntityId`: a path of name segments. -/
structure EntityId where
  path : List (List Char)
deriving DecidableEq, Repr

/-- `model::Type` (named `Ty` here because `Type` is reserved in Lean). -/
inductive Ty where
  | bool | u8 | u16 | u32 | u64 | u128
  | i8 | i16 | i32 | i64 | i128
  | f8 | f16 | f32 | f64 | f128
  | string | bytes
  | user (name : List Char)
  | api (id : EntityId)
deriving DecidableEq, Repr

/-- `model::Field` (attribute bag omitted: the parser always sets it to its
default and no claim mentions it). -/
structure Field where
  name : List Char
  ty : Ty
deriving DecidableEq, Repr

/-- `model::Dto`. -/
structure Dto where
  name : List Char
  fields : List Field
deriving DecidableEq, Repr

/-- `model::Rpc`. -/
structure Rpc where
  name : List Char
  params : List Field
  return_type : Option Ty
deriving DecidableEq, Repr

/-- `model::NamespaceChild`, with `model::Namespace` flattened into the
`nsC` constructor (a Namespace is its name plus its ordered children). -/
inductive Child where
  | dtoC (d : Dto)
  | rpcC (r : Rpc)
  | nsC (name : List Char) (children : List Child)

/-- `parser::UserType`: a (literal pattern, display name) rule. -/
structure UserType where
  parse : List Char
  name : List Char
deriving DecidableEq, Repr

/-- `parser::Config`: the ordered list of user-type rules. -/
structure Config where
  user_types : List UserType
deriving DecidableEq, Repr

/-! ## The grammar rules of `parser/rust.rs` -/

/-- `type_name` (rust.rs:80): first char ASCII-alphabetic or one of
`ALLOWED_TYPE_NAME_CHARS = "_&<>"`, then ASCII-alphanumeric or `_`. -/
def type_name : P (List Char) := fun s =>
  match s with
  | [] => none
  | c :: t =>
    if c.isAlpha || c = '_' || c = '&' || c = '<' || c = '>' then
      some (c :: t.takeWhile identChar, t.dropWhile identChar)
    else none

/-- `ident (:: ident)*`, at least one, no consumption of a trailing `::`
that is not followed by another item (the `separated_by` loop rewinds). -/
def identSepList : P (List (List Char)) := fun s =>
  match identP s with
  | none => none
  | some (n, r) =>
    let x := sepAux identP (pStr (strL "::")) r.length r
    some (n :: x.1, x.2)

/-- `use_decl` (rust.rs:93). -/
def use_decl : P Unit :=
  pMap (fun _ => ())
    (pThen
      (pThen
        (pThen (pThen (pOpt (pThen (pKeyword (strL "pub")) ws1)) (pKeyword (strL "use"))) ws1)
        identSepList)
      (pChar ';'))

/-- The loop of `user_ty` (rust.rs:112): try each configured rule in
declaration order; a failed candidate rewinds (consumes nothing); the
first rule whose literal pattern matches returns that rule's display
name.  On success the code runs `let _ = input.next()`, which advances
one further character when any input remains (`List.tail` of `[]` is
`[]`, matching `next()` at end of input).  Exhausting the rules fails
(the `i == len - 1` early return and the fallthrough error are both
plain failure). -/
def userTyGo : List UserType → P (List Char)
  | [], _ => none
  | u :: rest, s =>
    if startsWithL u.parse s then some (u.name, (s.drop u.parse.length).tail)
    else userTyGo rest s

/-- `user_ty` (rust.rs:112). -/
def user_ty (cfg : Config) : P (List Char) := userTyGo cfg.user_types

/-- `entity_id` (rust.rs:165): `type_name` separated by `::`, at least one. -/
def entity_id : P EntityId := fun s =>
  match type_name s with
  | none => none
  | some (n, r) =>
    let x := sepAux type_name (pStr (strL "::")) r.length r
    some (⟨n :: x.1⟩, x.2)

/-- The `ty_or_ref!` macro (rust.rs:106): `just(k).or(just("&" ++ k))`. -/
def tyOrRef (k : List Char) : P Unit := pOrElse (pStr k) (pStr ( '&' :: k))

/-- `ty` (rust.rs:138): ordered choice over the type spellings. -/
def ty (cfg : Config) : P Ty :=
  pOrElse (pMap (fun _ => Ty.bool) (pStr (strL "bool")))
  (pOrElse (pMap (fun _ => Ty.u8) (tyOrRef (strL "u8")))
  (pOrElse (pMap (fun _ => Ty.u16) (tyOrRef (strL "u16")))
  (pOrElse (pMap (fun _ => Ty.u32) (tyOrRef (strL "u32")))
  (pOrElse (pMap (fun _ => Ty.u64) (tyOrRef (strL "u64")))
  (pOrElse (pMap (fun _ => Ty.u128) (tyOrRef (strL "u128")))
  (pOrElse (pMap (fun _ => Ty.i8) (tyOrRef (strL "i8")))
  (pOrElse (pMap (fun _ => Ty.i16) (tyOrRef (strL "i16")))
  (pOrElse (pMap (fun _ => Ty.i32) (tyOrRef (strL "i32")))
  (pOrElse (pMap (fun _ => Ty.i64) (tyOrRef (strL "i64")))
  (pOrElse (pMap (fun _ => Ty.i128) (tyOrRef (strL "i128")))
  (pOrElse (pMap (fun _ => Ty.f8) (tyOrRef (strL "f8")))
  (pOrElse (pMap (fun _ => Ty.f16) (tyOrRef (strL "f16")))
  (pOrElse (pMap (fun _ => Ty.f32) (tyOrRef (strL "f32")))
  (pOrElse (pMap (fun _ => Ty.f64) (tyOrRef (strL "f64")))
  (pOrElse (pMap (fun _ => Ty.f128) (tyOrRef (strL "f128")))
  (pOrElse (pMap (fun _ => Ty.string) (tyOrRef (strL "String")))
  (pOrElse (pMap (fun _ => Ty.bytes) (tyOrRef (strL "Vec<u8>")))
  (pOrElse (pMap (fun _ => Ty.string) (pStr (strL "&str")))
  (pOrElse (pMap (fun _ => Ty.bytes) (pStr (strL "&[u8]")))
  (pOrElse (pMap Ty.user (user_ty cfg))
  (pMap Ty.api entity_id)))))))))))))))))))))

/-- Trim as `str::trim` does (both ends, whitespace). -/
def trimChars (s : List Char) : List Char :=
  ((s.dropWhile fun c => wsChar c).reverse.dropWhile fun c => wsChar c).reverse

/-- `line_comment` (rust.rs:233): `//` then everything up to (but not
including) the newline, value trimmed. -/
def line_comment : P (List Char) := fun s =>
  match pStr (strL "//") s with
  | none => none
  | some (_, r) =>
    some (trimChars (r.takeWhile fun c => c ≠ '\n'), r.dropWhile fun c => c ≠ '\n')

/-- Scan of the non-nested `/* ... */` interior: consume characters while
the input does not start with `*/`; consume the `*/`; fail at end of
input with the comment unclosed.  Fuel is the input length. -/
def bcAux : Nat → List Char → Option (List Char × List Char)
  | 0, s => if startsWithL (strL "*/") s then some ([], s.drop 2) else none
  | n + 1, s =>
    if startsWithL (strL "*/") s then some ([], s.drop 2)
    else
      match s with
      | [] => none
      | c :: t =>
        match bcAux n t with
        | none => none
        | some (b, r) => some (c :: b, r)

/-- `block_comment` (rust.rs:224). -/
def block_comment : P (List Char) := fun s =>
  match pStr (strL "/*") s with
  | none => none
  | some (_, r) =>
    match bcAux r.length r with
    | none => none
    | some (b, r2) => some (trimChars b, r2)

/-- `comment` (rust.rs:243). -/
def comment : P (List Char) := pOrElse line_comment block_comment

/-- `multi_comment` (rust.rs:247): `comment().padded().repeated()`. -/
def multi_comment : P (List (List Char)) := pRepeated (pPadded comment)

/-- chumsky `.padded_by(q)`: `q` before and after `p` (used with
`multi_comment`). -/
def pPaddedBy (p : P α) (q : P (List (List Char))) : P α :=
  pThenIgnore (pIgnoreThen q p) q

/-- `field` (rust.rs:178). -/
def field (cfg : Config) : P Field :=
  pPaddedBy
    (pMap (fun x => ⟨x.1, x.2⟩)
      (pPadded (pThen (pThenIgnore identP (pPadded (pChar ':'))) (ty cfg))))
    multi_comment

/-- The `#[...]` attribute span of `dto` (rust.rs:192): `#[`, then any
characters while not at `]` (so: everything up to the first `]`), then `]`. -/
def attrP : P Unit := fun s =>
  match pStr (strL "#[") s with
  | none => none
  | some (_, r) =>
    match r.dropWhile fun c => c ≠ ']' with
    | [] => none
    | _ :: t => some ((), t)

/-- `dto` (rust.rs:191). -/
def dto (cfg : Config) : P Dto :=
  let fields :=
    pDelim (pPadded (pChar lbrace)) (pPadded (pChar rbrace))
      (pPaddedBy (pSepTrail (field cfg) (pPadded (pChar ','))) multi_comment)
  let name :=
    pIgnoreThen (pOpt (pThen (pKeyword (strL "pub")) ws1))
      (pIgnoreThen (pPadded (pKeyword (strL "struct"))) identP)
  pMap (fun x => ⟨x.1, x.2⟩) (pThen (pIgnoreThen (pPadded (pOpt attrP)) name) fields)

/-- `ExprBlock` (rust.rs:217). -/
inductive ExprBlock where
  | comment (text : List Char)
  | body (text : List Char)
  | nested (blocks : List ExprBlock)

/-- The `body` alternative of `expr_block` (rust.rs:252):
`none_of("{}").repeated().at_least(1).slice().map(&str::trim)`. -/
def ebBody : P (List Char) := fun s =>
  match s.takeWhile fun c => !(c = lbrace || c = rbrace) with
  | [] => none
  | c :: t => some (trimChars (c :: t), s.dropWhile fun c => !(c = lbrace || c = rbrace))

/-- The repeated element of `expr_block` (rust.rs:254-258): ordered choice
of padded comment, nested block, plain body run. -/
def ebElem (nested : P (List ExprBlock)) : P ExprBlock :=
  pOrElse (pMap ExprBlock.comment (pPadded comment))
    (pOrElse (pMap ExprBlock.nested nested) (pMap ExprBlock.body ebBody))

/-- `expr_block` (rust.rs:251) with explicit recursion fuel for the
`recursive` combinator (nesting depth is bounded by input length). -/
def expr_block_f : Nat → P (List ExprBlock)
  | 0 => fun _ => none
  | n + 1 =>
    pDelim (pPadded (pChar lbrace)) (pPadded (pChar rbrace))
      (pRepeated (ebElem (expr_block_f n)))

/-- `expr_block` (rust.rs:251). -/
def expr_block : P (List ExprBlock) := fun s => expr_block_f (s.length + 1) s

/-- The signature part of `rpc` (rust.rs:265):
`name.then(params).then(return_type.or_not())`. -/
def rpcSig (cfg : Config) : P ((List Char × List Field) × Option Ty) :=
  let fn_keyword := pThen (pOpt (pThen (pKeyword (strL "pub")) ws1)) (pKeyword (strL "fn"))
  let name := pIgnoreThen (pPadded fn_keyword) identP
  let params :=
    pDelim (pPadded (pChar '(')) (pPadded (pChar ')'))
      (pPaddedBy (pSepTrail (field cfg) (pPadded (pChar ','))) multi_comment)
  let return_type := pIgnoreThen (pStr (strL "->")) (pPadded (ty cfg))
  pThen (pThen name params) (pOpt return_type)

/-- `rpc` (rust.rs:265): the signature, then the body skipped by
`expr_block().padded()`. -/
def rpc (cfg : Config) : P Rpc :=
  pMap (fun x => ⟨x.1.1, x.1.2, x.2⟩) (pThenIgnore (rpcSig cfg) (pPadded expr_block))

/-- The repeated element of `namespace_children` (rust.rs:293-298):
ordered choice of Dto, Rpc, Namespace, comment-tolerant on both sides. -/
def nsChildElem (cfg : Config) (nsp : P (List Char × List Child)) : P Child :=
  pPaddedBy
    (pOrElse (pMap Child.dtoC (dto cfg))
      (pOrElse (pMap Child.rpcC (rpc cfg)) (pMap (fun x => Child.nsC x.1 x.2) nsp)))
    multi_comment

/-- `namespace_children` (rust.rs:289). -/
def namespace_children (cfg : Config) (nsp : P (List Char × List Child)) :
    P (List Child) :=
  pRepeated (nsChildElem cfg nsp)

/-- `namespace` (rust.rs:303) with explicit recursion fuel. -/
def namespace_f (cfg : Config) : Nat → P (List Char × List Child)
  | 0 => fun _ => none
  | n + 1 =>
    let mod_keyword := pThen (pOpt (pThen (pKeyword (strL "pub")) ws1)) (pKeyword (strL "mod"))
    let body :=
      pDelim (pPadded (pChar lbrace)) (pPadded (pChar rbrace))
        (namespace_children cfg (namespace_f cfg n))
    pMap (fun x => (x.1, x.2.getD []))
      (pThen (pIgnoreThen (pPadded mod_keyword) identP)
        (pOrElse (pMap (fun _ => (none : Option (List Child))) (pPadded (pChar ';')))
          (pMap some body)))

/-- `namespace` (rust.rs:303). -/
def namespaceP (cfg : Config) : P (List Char × List Child) := fun s =>
  namespace_f cfg (s.length + 1) s

/-- The per-chunk grammar of `Rust::parse` (rust.rs:36-41): leading
use-declarations and comments, then the namespace children, then end of
input. -/
def chunk_children (cfg : Config) : P (List Child) :=
  pThenIgnore
    (pIgnoreThen
      (pRepeated
        (pPadded (pOrElse (pMap (fun _ => ()) use_decl) (pMap (fun _ => ()) comment))))
      (pPadded (namespace_children cfg (namespaceP cfg))))
    pEnd

/-- One chunk's parse as `Rust::parse` runs it: success is the chunk's
ordered top-level children, failure is the grammar error. -/
def parse_chunk (cfg : Config) (data : List Char) : Option (List Child) :=
  match chunk_children cfg data with
  | none => none
  | some (cs, _) => some cs

/-! ## File-path to namespace-path inference and the model builder -/

/-- The extension-stripping of Rust's `Path::with_extension("")` on one
path component: remove the final `.`-suffix, where a dot that starts the
component does not by itself begin an extension (`".rs"` has no
extension, `"c.rs"` becomes `"c"`, `"a.b.c"` becomes `"a.b"`). -/
def stripExt : List Char → List Char
  | [] => []
  | c :: t =>
    c :: (if t.contains '.' then ((t.reverse.dropWhile fun d => d ≠ '.').tail).reverse else t)

/-- `namespace_path` (rust.rs:67), on a path given as its ordered
components: `Path::ends_with("mod.rs")` / `("lib.rs")` holds exactly when
the final component is that file name, in which case the parent path is
taken (`Path::parent` of a single component is the empty path); otherwise
the extension of the final component is stripped. -/
def namespace_path (p : List (List Char)) : List (List Char) :=
  if p.getLast? = some (strL "mod.rs") ∨ p.getLast? = some (strL "lib.rs") then p.dropLast
  else
    match p.getLast? with
    | none => []
    | some last => p.dropLast ++ [stripExt last]

/-- `model::Chunk`: optional relative file path (as components) plus the
chunk's source text. -/
structure Chunk where
  relative_file_path : Option (List (List Char))
  data : List Char

/-- Modelled from the spec: the builder's mutable state — `model::Builder`
is not among the repository's files.  §4.2: a session-scoped namespace
nesting stack plus the growing tree rooted at the implicit root
namespace (held here as the root's ordered child list). -/
structure Builder where
  namespace_stack : List (List Char)
  api : List Child

/-- First child namespace with the given name, if any. -/
def findNs (n : List Char) : List Child → Option (List Child)
  | [] => none
  | Child.nsC m cs :: rest => if m = n then some cs else findNs n rest
  | _ :: rest => findNs n rest

/-- Replace the first child namespace with the given name. -/
def replaceNs (n : List Char) (newChildren : List Child) : List Child → List Child
  | [] => []
  | Child.nsC m cs :: rest =>
    if m = n then Child.nsC m newChildren :: rest
    else Child.nsC m cs :: replaceNs n newChildren rest
  | c :: rest => c :: replaceNs n newChildren rest

/-- Modelled from the spec (§4.2 *merge chunk children into tree*): walk
the stack path from the root, descending into an existing namespace of
the same name or synthesizing a missing one, and append the chunk's
children at the end of the path. -/
def mergeAt : List (List Char) → List Child → List Child → List Child
  | [], cs, children => children ++ cs
  | h :: t, cs, children =>
    match findNs h children with
    | some sub => replaceNs h (mergeAt t cs sub) children
    | none => children ++ [Child.nsC h (mergeAt t cs [])]

/-- `Rust::parse` (rust.rs:28-58), with the builder threaded explicitly in
place of `&mut`: per chunk, enter the namespace components inferred from
the chunk's file path, run the chunk grammar, and on success
`merge_from_chunk` then `clear_namespace`; the first grammar error
returns early with `Err` (`some ()`), leaving the builder as already
mutated by the preceding chunks. -/
def rust_parse (cfg : Config) : List Chunk → Builder → Builder × Option Unit
  | [], b => (b, none)
  | ch :: rest, b =>
    let comps := match ch.relative_file_path with
      | some p => namespace_path p
      | none => []
    let b1 : Builder := { b with namespace_stack := b.namespace_stack ++ comps }
    match parse_chunk cfg ch.data with
    | none => (b1, some ())
    | some cs =>
      rust_parse cfg rest { namespace_stack := [], api := mergeAt b1.namespace_stack cs b1.api }

/-- Modelled from the spec (§4.2 Lookup): resolve an EntityId path segment
by segment; every non-final segment must name a child namespace; returns
the children at the end of the path or "not found". -/
def find_namespace : List Child → List (List Char) → Option (List Child)
  | children, [] => some children
  | children, h :: t =>
    match findNs h children with
    | none => none
    | some sub => find_namespace sub t

/-- Modelled from the spec (§4.2 Lookup): the child DTO of the given name,
if any. -/
def dtoNamed (n : List Char) : List Child → Option Dto
  | [] => none
  | Child.dtoC d :: rest => if d.name = n then some d else dtoNamed n rest
  | _ :: rest => dtoNamed n rest

/-! ## `output/buffer.rs` -/

/-- One call of the `Output` trait methods that `impl Output for Buffer`
implements with plain appends (`start_chunk`/`end_chunk` are `todo!()`
and appear in no claim). -/
inductive BufOp where
  | write_str (data : List Char)
  | write (data : Char)
  | newline
deriving DecidableEq, Repr

/-- One method call on a `Buffer` (its `data` field): `write_str` pushes
the string, `write` pushes the char, `newline` pushes `'\n'`; each
returns `Ok(())`, embedded as `some`. -/
def bufApply (b : List Char) : BufOp → Option (List Char)
  | BufOp.write_str d => some (b ++ d)
  | BufOp.write c => some (b ++ [c])
  | BufOp.newline => some (b ++ ['\n'])

/-- Run a call sequence against a buffer, stopping at the first error
(there are none, but the embedding keeps the `Result` structure). -/
def bufRun : List BufOp → List Char → Option (List Char)
  | [], b => some b
  | op :: t, b =>
    match bufApply b op with
    | none => none
    | some b2 => bufRun t b2

/-- The text one call contributes to the buffer. -/
def bufText : BufOp → List Char
  | BufOp.write_str d => d
  | BufOp.write c => [c]
  | BufOp.newline => ['\n']

/-! ## Spec-side descriptions of inputs

The following definitions describe classes of source texts in the
spec's terms (well-formed comments, brace-balanced bodies, declaration
sequences) together with their rendering into program text.  They are
used to quantify the theorems over whole families of inputs; the parser
definitions above stay the authority on behaviour. -/

/-- Head of the list satisfies `p`, or the list is empty. -/
def hB (p : Char → Bool) : List Char → Bool
  | [] => true
  | c :: _ => p c

/-- A string `text::ident()` accepts in full. -/
def wfIdent (n : List Char) : Bool :=
  match n with
  | [] => false
  | c :: t => identStart c && t.all identChar

/-- Does `pat` occur as a contiguous substring? -/
def hasSub (pat : List Char) : List Char → Bool
  | [] => startsWithL pat []
  | c :: t => startsWithL pat (c :: t) || hasSub pat t

/-- A comment token: `//`-to-end-of-line (text without a newline) or a
non-nested block comment (text without a `*/`). -/
inductive CommentTok where
  | line (text : List Char)
  | block (text : List Char)
deriving DecidableEq, Repr

/-- The source text of a comment token. -/
def renderComment : CommentTok → List Char
  | CommentTok.line t => strL "//" ++ t ++ ['\n']
  | CommentTok.block t => strL "/*" ++ t ++ strL "*/"

/-- Well-formed comment: a line comment's text holds no newline, a block
comment's text never closes itself early. -/
def wfComment : CommentTok → Bool
  | CommentTok.line t => !t.contains '\n'
  | CommentTok.block t => !hasSub (strL "*/") t

/-- A plain body segment of an RPC body: non-empty, brace-free, starting
with a character that neither opens a comment nor is whitespace (so the
segment is consumed as one `none_of("{}")` run). -/
def bodySegOk (t : List Char) : Bool :=
  (match t with
   | [] => false
   | c :: _ => !wsChar c && c != '/') &&
  t.all fun c => c != lbrace && c != rbrace

/- Spec-side shape of an RPC body block's items: comments, plain body
text, and nested brace blocks (mirrors `ExprBlock`). -/
mutual
inductive EB where
  | commentE (c : CommentTok)
  | bodyE (text : List Char)
  | nestedE (inner : EBs)
inductive EBs where
  | nil
  | cons (head : EB) (tail : EBs)
end

mutual
/-- Render one body item back to source text. -/
def renderEB : EB → List Char
  | EB.commentE c => renderComment c
  | EB.bodyE t => t
  | EB.nestedE l => lbrace :: (renderEBs l ++ [rbrace])

/-- Render a body item sequence. -/
def renderEBs : EBs → List Char
  | EBs.nil => []
  | EBs.cons e t => renderEB e ++ renderEBs t
end

mutual
/-- Well-formed body item.  A plain body segment must be followed by a
nested block or be last: the `none_of("{}")` run stops only at a brace,
so a comment directly after body text would be swallowed into the body
run (that is claim C1's counterexample). -/
def wfEB : EB → Bool
  | EB.commentE c => wfComment c
  | EB.bodyE t => bodySegOk t
  | EB.nestedE l => wfEBs l

/-- Well-formed item sequence (see `wfEB`). -/
def wfEBs : EBs → Bool
  | EBs.nil => true
  | EBs.cons (EB.bodyE t) tail =>
    bodySegOk t &&
    (match tail with
     | EBs.nil => true
     | EBs.cons (EB.nestedE _) _ => true
     | EBs.cons _ _ => false) &&
    wfEBs tail
  | EBs.cons e tail => wfEB e && wfEBs tail
end

mutual
/-- Brace-nesting depth of one item. -/
def depthEB : EB → Nat
  | EB.commentE _ => 0
  | EB.bodyE _ => 0
  | EB.nestedE l => depthEBs l + 1

/-- Brace-nesting depth of a sequence. -/
def depthEBs : EBs → Nat
  | EBs.nil => 0
  | EBs.cons e t => max (depthEB e) (depthEBs t)
end

/-- Number of items in a sequence. -/
def countEBs : EBs → Nat
  | EBs.nil => 0
  | EBs.cons _ t => countEBs t + 1

mutual
/-- The `ExprBlock` value `expr_block` produces for one rendered item. -/
def valEB : EB → ExprBlock
  | EB.commentE (CommentTok.line t) => ExprBlock.comment (trimChars t)
  | EB.commentE (CommentTok.block t) => ExprBlock.comment (trimChars t)
  | EB.bodyE t => ExprBlock.body (trimChars t)
  | EB.nestedE l => ExprBlock.nested (valEBs l)

/-- The `ExprBlock` values for a rendered sequence. -/
def valEBs : EBs → List ExprBlock
  | EBs.nil => []
  | EBs.cons e t => valEB e :: valEBs t
end

/-- Scan past a block comment's interior: the input after the first `*/`
(fuel is the input length; `none` when the comment never closes). -/
def afterClose : Nat → List Char → Option (List Char)
  | 0, s => if startsWithL (strL "*/") s then some (s.drop 2) else none
  | n + 1, s =>
    if startsWithL (strL "*/") s then some (s.drop 2)
    else
      match s with
      | [] => none
      | _ :: t => afterClose n t

/-- The spec's brace-balance count (§4.1 Rpc): scan the text keeping a
brace depth, skipping line and block comments so that braces inside
comment text are not counted; `true` iff the scan ends at depth zero
without the depth going negative. -/
def sbAux : Nat → Nat → List Char → Bool
  | 0, d, s => s.isEmpty && d == 0
  | _ + 1, d, [] => d == 0
  | n + 1, d, c :: t =>
    if startsWithL (strL "//") (c :: t) then
      sbAux n d ((c :: t).dropWhile fun x => x ≠ '\n')
    else if startsWithL (strL "/*") (c :: t) then
      match afterClose t.tail.length t.tail with
      | none => false
      | some r => sbAux n d r
    else if c = lbrace then sbAux n (d + 1) t
    else if c = rbrace then
      match d with
      | 0 => false
      | d2 + 1 => sbAux n d2 t
    else sbAux n d t

/-- The spec's notion of a brace-balanced block with comment-aware
counting: starts with `{`, braces balance, braces inside comments do not
count. -/
def specBalancedBlock (s : List Char) : Bool :=
  startsWithL [lbrace] s && sbAux s.length 0 s

/-- The spellings the `ty` rule recognizes before the user-type and
qualified-name fallbacks, with the `Type` variant each produces
(rust.rs:138-159, in choice order irrelevant here: these are exactly the
keyword alternatives). -/
def primPairs : List (List Char × Ty) :=
  [ (strL "bool", Ty.bool)
  , (strL "u8", Ty.u8), (strL "&u8", Ty.u8)
  , (strL "u16", Ty.u16), (strL "&u16", Ty.u16)
  , (strL "u32", Ty.u32), (strL "&u32", Ty.u32)
  , (strL "u64", Ty.u64), (strL "&u64", Ty.u64)
  , (strL "u128", Ty.u128), (strL "&u128", Ty.u128)
  , (strL "i8", Ty.i8), (strL "&i8", Ty.i8)
  , (strL "i16", Ty.i16), (strL "&i16", Ty.i16)
  , (strL "i32", Ty.i32), (strL "&i32", Ty.i32)
  , (strL "i64", Ty.i64), (strL "&i64", Ty.i64)
  , (strL "i128", Ty.i128), (strL "&i128", Ty.i128)
  , (strL "f8", Ty.f8), (strL "&f8", Ty.f8)
  , (strL "f16", Ty.f16), (strL "&f16", Ty.f16)
  , (strL "f32", Ty.f32), (strL "&f32", Ty.f32)
  , (strL "f64", Ty.f64), (strL "&f64", Ty.f64)
  , (strL "f128", Ty.f128), (strL "&f128", Ty.f128)
  , (strL "String", Ty.string), (strL "&String", Ty.string)
  , (strL "Vec<u8>", Ty.bytes), (strL "&Vec<u8>", Ty.bytes)
  , (strL "&str", Ty.string)
  , (strL "&[u8]", Ty.bytes) ]

/-- The value-spelling/reference-spelling pairs of claim C6: each
primitive numeric keyword, the string keyword and the byte-sequence
keyword, with the `Type` variant both spellings produce. -/
def refPairs : List (List Char × Ty) :=
  [ (strL "u8", Ty.u8), (strL "u16", Ty.u16), (strL "u32", Ty.u32)
  , (strL "u64", Ty.u64), (strL "u128", Ty.u128)
  , (strL "i8", Ty.i8), (strL "i16", Ty.i16), (strL "i32", Ty.i32)
  , (strL "i64", Ty.i64), (strL "i128", Ty.i128)
  , (strL "f8", Ty.f8), (strL "f16", Ty.f16), (strL "f32", Ty.f32)
  , (strL "f64", Ty.f64), (strL "f128", Ty.f128)
  , (strL "String", Ty.string)
  , (strL "Vec<u8>", Ty.bytes) ]

/-- A field (or RPC parameter) of a rendered declaration: a name and one
of the primitive type spellings. -/
structure FieldSpec where
  fname : List Char
  spell : List Char
  fval : Ty
deriving DecidableEq, Repr

/-- Render one field: `name:spelling`. -/
def renderFieldSpec (f : FieldSpec) : List Char := f.fname ++ ':' :: f.spell

/-- Render `(, field)*` — the tail of a comma-separated field list. -/
def renderFieldTail : List FieldSpec → List Char
  | [] => []
  | f :: t => ',' :: (renderFieldSpec f ++ renderFieldTail t)

/-- Render a comma-separated field list. -/
def renderFields : List FieldSpec → List Char
  | [] => []
  | f :: t => renderFieldSpec f ++ renderFieldTail t

/-- The `Field` values a rendered field list parses to. -/
def fieldVals (fs : List FieldSpec) : List Field :=
  fs.map fun f => ⟨f.fname, f.fval⟩

/-- Well-formed field spec. -/
def wfFieldSpec (f : FieldSpec) : Bool :=
  wfIdent f.fname && primPairs.contains (f.spell, f.fval)

/- Spec-side shape of a namespace body / chunk top level: an ordered
sequence of Dto, Rpc and (recursively, possibly forward-declared)
Namespace declarations (§4.1). -/
mutual
inductive Decl where
  | dtoD (name : List Char) (fields : List FieldSpec)
  | rpcD (name : List Char) (params : List FieldSpec) (ret : Option FieldSpec)
  | nsD (name : List Char) (body : Option Decls)
inductive Decls where
  | nil
  | cons (d : Decl) (t : Decls)
end

/-- Render of an optional return type. -/
def retRender : Option FieldSpec → List Char
  | none => []
  | some f => strL "->" ++ f.spell

mutual
/-- Render one declaration to source text (RPC bodies render as the empty
block `{}`; claim C1 covers body contents). -/
def renderDecl : Decl → List Char
  | Decl.dtoD n fs => strL "struct " ++ n ++ lbrace :: (renderFields fs ++ [rbrace])
  | Decl.rpcD n ps r =>
    strL "fn " ++ n ++ '(' :: (renderFields ps ++ ')' ::
      (retRender r ++ [lbrace, rbrace]))
  | Decl.nsD n none => strL "mod " ++ n ++ [ ';' ]
  | Decl.nsD n (some body) => strL "mod " ++ n ++ lbrace :: (renderDecls body ++ [rbrace])

/-- Render a declaration sequence. -/
def renderDecls : Decls → List Char
  | Decls.nil => []
  | Decls.cons d t => renderDecl d ++ renderDecls t
end

mutual
/-- The `NamespaceChild` value one rendered declaration parses to. -/
def valDecl : Decl → Child
  | Decl.dtoD n fs => Child.dtoC ⟨n, fieldVals fs⟩
  | Decl.rpcD n ps r => Child.rpcC ⟨n, fieldVals ps, r.map fun f => f.fval⟩
  | Decl.nsD n none => Child.nsC n []
  | Decl.nsD n (some body) => Child.nsC n (valDecls body)

/-- The `NamespaceChild` values of a rendered sequence. -/
def valDecls : Decls → List Child
  | Decls.nil => []
  | Decls.cons d t => valDecl d :: valDecls t
end

mutual
/-- Well-formed declaration: names are identifiers, fields well-formed. -/
def wfDecl : Decl → Bool
  | Decl.dtoD n fs => wfIdent n && fs.all wfFieldSpec
  | Decl.rpcD n ps r =>
    wfIdent n && ps.all wfFieldSpec &&
    (match r with
     | none => true
     | some f => primPairs.contains (f.spell, f.fval))
  | Decl.nsD n none => wfIdent n
  | Decl.nsD n (some body) => wfIdent n && wfDecls body

/-- Well-formed declaration sequence. -/
def wfDecls : Decls → Bool
  | Decls.nil => true
  | Decls.cons d t => wfDecl d && wfDecls t
end

mutual
/-- Namespace-nesting depth of a declaration (fuel needed by the
`recursive` namespace rule). -/
def ndepthDecl : Decl → Nat
  | Decl.dtoD _ _ => 0
  | Decl.rpcD _ _ _ => 0
  | Decl.nsD _ none => 1
  | Decl.nsD _ (some body) => ndepthDecls body + 1

/-- Namespace-nesting depth of a sequence. -/
def ndepthDecls : Decls → Nat
  | Decls.nil => 0
  | Decls.cons d t => max (ndepthDecl d) (ndepthDecls t)
end

/-- Number of declarations in a sequence. -/
def countDecls : Decls → Nat
  | Decls.nil => 0
  | Decls.cons _ t => countDecls t + 1

/-- The children of a namespace declaration's parsed value: empty for a
forward declaration, the body's values otherwise. -/
def nsBodyVal : Option Decls → List Child
  | none => []
  | some l => valDecls l

/-! ## Foundational lemmas about the combinators -/

theorem pStr_pref (k r : List Char) : pStr k (k ++ r) = some ((), r) := by
  induction k with
  | nil => rfl
  | cons a t ih => simp [pStr, ih]

theorem takeWhile_append_eq (p : Char → Bool) (l b : List Char)
    (h1 : ∀ c ∈ l, p c = true) (h2 : hB (fun c => !p c) b = true) :
    (l ++ b).takeWhile p = l ∧ (l ++ b).dropWhile p = b := by
  induction l with
  | nil =>
    cases b with
    | nil => simp
    | cons c t =>
      simp [hB] at h2
      simp [List.takeWhile, List.dropWhile, h2]
  | cons c t ih =>
    have hc : p c = true := h1 c (by simp)
    have := ih fun d hd => h1 d (by simp [hd])
    simp [List.takeWhile, List.dropWhile, hc, this.1, this.2]

theorem identP_render (n b : List Char) (hn : wfIdent n = true)
    (hb : hB (fun c => !identChar c) b = true) :
    identP (n ++ b) = some (n, b) := by
  match n with
  | c :: t =>
    simp [wfIdent] at hn
    have h := takeWhile_append_eq identChar t b hn.2 hb
    simp [identP, hn.1, h.1, h.2]

theorem pKeyword_render (k b : List Char) (hk : wfIdent k = true)
    (hb : hB (fun c => !identChar c) b = true) :
    pKeyword k (k ++ b) = some ((), b) := by
  simp [pKeyword, identP_render k b hk hb]

theorem dropWs_eq (s : List Char) (h : hB (fun c => !wsChar c) s = true) :
    dropWs s = s := by
  cases s with
  | nil => rfl
  | cons c t =>
    simp [hB] at h
    simp [dropWs, List.dropWhile, h]

theorem dropWs_cons_ws (c : Char) (t : List Char) (h : wsChar c = true) :
    dropWs (c :: t) = dropWs t := by
  simp [dropWs, List.dropWhile, h]

theorem comment_none (c : Char) (t : List Char) (h : c ≠ '/') :
    comment (c :: t) = none := by
  simp [comment, pOrElse, line_comment, block_comment, strL, pStr, h]

theorem comment_none_nil : comment [] = none := rfl

theorem repAux_stop (p : P α) (fuel : Nat) (s : List Char) (h : p s = none) :
    repAux p fuel s = ([], s) := by
  cases fuel <;> simp [repAux, h]

theorem identStart_not_ws (c : Char) (h : identStart c = true) : wsChar c = false := by
  cases hw : wsChar c
  · rfl
  · exfalso
    have : c = ' ' ∨ c = '\t' ∨ c = '\r' ∨ c = '\n' := by
      simpa [wsChar, Char.isWhitespace, or_assoc] using hw
    rcases this with rfl | rfl | rfl | rfl <;> exact absurd h (by decide)

theorem identStart_ne_slash (c : Char) (h : identStart c = true) : c ≠ '/' := by
  rintro rfl
  exact absurd h (by decide)

/-- At input whose head neither is whitespace nor opens a comment, the
`comment().padded()` element fails. -/
theorem pPadded_comment_none (s : List Char)
    (h : hB (fun c => !wsChar c && c != '/') s = true) :
    pPadded comment s = none := by
  have hd : dropWs s = s := by
    refine dropWs_eq s ?_
    cases s with
    | nil => rfl
    | cons c t => simp [hB] at h ⊢; simp [h.1]
  cases s with
  | nil => simp [pPadded, hd, comment_none_nil]
  | cons c t =>
    simp [hB] at h
    simp [pPadded, hd, comment_none c t h.2]

/-- `multi_comment` consumes nothing at such input. -/
theorem multi_comment_none (s : List Char)
    (h : hB (fun c => !wsChar c && c != '/') s = true) :
    multi_comment s = some ([], s) := by
  simp [multi_comment, pRepeated, repAux_stop _ _ _ (pPadded_comment_none s h)]

/-- Every keyword-alternative spelling of `ty` parses to its variant and
consumes exactly the spelling, for every configuration and remainder
(these alternatives precede the user-type and qualified-name fallbacks
in the ordered choice). -/
theorem ty_prim (pr : List Char × Ty) (hpr : pr ∈ primPairs) (cfg : Config)
    (rest : List Char) : ty cfg (pr.1 ++ rest) = some (pr.2, rest) := by
  fin_cases hpr <;> rfl

theorem primPairs_head_hard (pr : List Char × Ty) (hpr : pr ∈ primPairs) :
    hB (fun c => !wsChar c && c != '/') pr.1 = true := by
  fin_cases hpr <;> rfl

theorem hB_weaken (s : List Char) (h : hB (fun c => !wsChar c && c != '/') s = true) :
    hB (fun c => !wsChar c) s = true := by
  cases s with
  | nil => rfl
  | cons c t => simp [hB] at h ⊢; exact h.1

theorem hB_append_of_ne (p : Char → Bool) (l b : List Char) (hl : hB p l = true)
    (hne : l ≠ []) : hB p (l ++ b) = true := by
  cases l with
  | nil => exact absurd rfl hne
  | cons c t => simpa [hB] using hl

theorem primPairs_ne_nil (pr : List Char × Ty) (hpr : pr ∈ primPairs) : pr.1 ≠ [] := by
  fin_cases hpr <;> decide

theorem wfIdent_hard (n : List Char) (hn : wfIdent n = true) :
    hB (fun c => !wsChar c && c != '/') n = true := by
  cases n with
  | nil => exact absurd hn (by simp [wfIdent])
  | cons c t =>
    simp [wfIdent] at hn
    simp [hB, identStart_not_ws c hn.1, identStart_ne_slash c hn.1]

theorem field_render (cfg : Config) (n sp : List Char) (v : Ty) (rest : List Char)
    (hn : wfIdent n = true) (hsp : (sp, v) ∈ primPairs)
    (hrest : hB (fun c => !wsChar c && c != '/') rest = true) :
    field cfg (n ++ ':' :: (sp ++ rest)) = some (⟨n, v⟩, rest) := by
  have hhard : hB (fun c => !wsChar c && c != '/') (n ++ ':' :: (sp ++ rest)) = true :=
    hB_append_of_ne _ n _ (wfIdent_hard n hn) (by rintro rfl; simp [wfIdent] at hn)
  have hmc1 := multi_comment_none _ hhard
  have hid : identP (n ++ ':' :: (sp ++ rest)) = some (n, ':' :: (sp ++ rest)) :=
    identP_render n _ hn (by simp [hB]; decide)
  have hspHard := primPairs_head_hard (sp, v) hsp
  have hspNe := primPairs_ne_nil (sp, v) hsp
  have hdropSp : dropWs (sp ++ rest) = sp ++ rest :=
    dropWs_eq _ (hB_weaken _ (hB_append_of_ne _ sp rest hspHard hspNe))
  have hty : ty cfg (sp ++ rest) = some (v, rest) := ty_prim (sp, v) hsp cfg rest
  have hdropS : dropWs (n ++ ':' :: (sp ++ rest)) = n ++ ':' :: (sp ++ rest) :=
    dropWs_eq _ (hB_weaken _ hhard)
  have hdropRest : dropWs rest = rest := dropWs_eq _ (hB_weaken _ hrest)
  have hdropColon : dropWs (':' :: (sp ++ rest)) = ':' :: (sp ++ rest) :=
    dropWs_eq _ (by simp [hB]; decide)
  have hmc2 := multi_comment_none _ hrest
  simp [field, hdropColon, pPaddedBy, pThenIgnore, pIgnoreThen, pMap, pPadded, pThen, pChar,
    hmc1, hid, hdropSp, hty, hdropS, hdropRest, hmc2, dropWs_eq]

theorem field_none (cfg : Config) (s : List Char)
    (h : hB (fun c => !wsChar c && c != '/' && !identStart c) s = true) :
    field cfg s = none := by
  have hhard : hB (fun c => !wsChar c && c != '/') s = true := by
    cases s with
    | nil => rfl
    | cons c t => simp [hB] at h ⊢; exact ⟨h.1.1, h.1.2⟩
  have hmc1 := multi_comment_none _ hhard
  have hdrop : dropWs s = s := dropWs_eq _ (hB_weaken _ hhard)
  have hid : identP s = none := by
    cases s with
    | nil => rfl
    | cons c t =>
      simp [hB] at h
      simp [identP, h.2]
  simp [field, pPaddedBy, pThenIgnore, pIgnoreThen, pMap, pPadded, pThen, hmc1, hdrop, hid]

theorem sepComma_none (s : List Char)
    (h : hB (fun c => !wsChar c && c != ',') s = true) :
    pPadded (pChar ',') s = none := by
  have hdrop : dropWs s = s := by
    refine dropWs_eq _ ?_
    cases s with
    | nil => rfl
    | cons c t => simp [hB] at h ⊢; exact h.1
  cases s with
  | nil => simp [pPadded, hdrop, pChar]
  | cons c t =>
    simp [hB] at h
    simp [pPadded, hdrop, pChar, h.2]

theorem renderFieldTail_length (t : List FieldSpec) :
    t.length ≤ (renderFieldTail t).length := by
  induction t with
  | nil => simp [renderFieldTail]
  | cons f t ih => simp [renderFieldTail]; omega

theorem sepAux_fields (cfg : Config) (t : List FieldSpec) (rest : List Char) (fuel : Nat)
    (ht : t.all wfFieldSpec = true)
    (hrest : hB (fun c => !wsChar c && c != '/') rest = true)
    (hsep : pPadded (pChar ',') rest = none)
    (hfuel : t.length ≤ fuel) :
    sepAux (field cfg) (pPadded (pChar ',')) fuel (renderFieldTail t ++ rest) =
      (fieldVals t, rest) := by
  induction t generalizing fuel with
  | nil =>
    cases fuel with
    | zero => simp [renderFieldTail, sepAux, fieldVals]
    | succ n => simp [renderFieldTail, sepAux, hsep, fieldVals]
  | cons f t ih =>
    cases fuel with
    | zero => simp at hfuel
    | succ n =>
      have hwf : wfFieldSpec f = true := by
        have := List.all_eq_true.mp ht f (by simp)
        exact this
      have ht2 : t.all wfFieldSpec = true := by
        refine List.all_eq_true.mpr fun x hx => List.all_eq_true.mp ht x (by simp [hx])
      simp [wfFieldSpec] at hwf
      obtain ⟨hfn, hfp⟩ := hwf
      have hfnameHard := wfIdent_hard f.fname hfn
      have hfnameNe : f.fname ≠ [] := by
        rintro h; rw [h] at hfn; exact absurd hfn (by simp [wfIdent])
      have hdropF : dropWs (renderFieldSpec f ++ (renderFieldTail t ++ rest)) =
          renderFieldSpec f ++ (renderFieldTail t ++ rest) := by
        refine dropWs_eq _ (hB_weaken _ ?_)
        simp only [renderFieldSpec, List.append_assoc]
        exact hB_append_of_ne _ f.fname _ hfnameHard hfnameNe
      have hrest2 : hB (fun c => !wsChar c && c != '/') (renderFieldTail t ++ rest) = true := by
        cases t with
        | nil => simpa [renderFieldTail]
        | cons g t2 => simp [renderFieldTail, hB]; decide
      have hfld : field cfg (renderFieldSpec f ++ (renderFieldTail t ++ rest)) =
          some (⟨f.fname, f.fval⟩, renderFieldTail t ++ rest) := by
        have := field_render cfg f.fname f.spell f.fval (renderFieldTail t ++ rest) hfn
          (by simpa using hfp) hrest2
        simpa [renderFieldSpec, List.append_assoc] using this
      have hih := ih n ht2 (by simp at hfuel; omega)
      have hdc : dropWs (',' :: (renderFieldSpec f ++ (renderFieldTail t ++ rest))) =
          ',' :: (renderFieldSpec f ++ (renderFieldTail t ++ rest)) :=
        dropWs_eq _ (by simp [hB]; decide)
      simp only [renderFieldTail, List.append_assoc, List.cons_append]
      simp [sepAux, pPadded, pChar, hdc, hdropF, hfld, hih, fieldVals]

theorem fields_sep_render (cfg : Config) (fs : List FieldSpec) (rest : List Char)
    (hfs : fs.all wfFieldSpec = true)
    (hrest : hB (fun c => !wsChar c && c != '/') rest = true)
    (hsep : pPadded (pChar ',') rest = none)
    (hfield : field cfg rest = none) :
    pSepTrail (field cfg) (pPadded (pChar ',')) (renderFields fs ++ rest) =
      some (fieldVals fs, rest) := by
  cases fs with
  | nil => simp [renderFields, pSepTrail, hfield, fieldVals]
  | cons f t =>
    have hwf : wfFieldSpec f = true := List.all_eq_true.mp hfs f (by simp)
    have ht2 : t.all wfFieldSpec = true :=
      List.all_eq_true.mpr fun x hx => List.all_eq_true.mp hfs x (by simp [hx])
    simp [wfFieldSpec] at hwf
    obtain ⟨hfn, hfp⟩ := hwf
    have hrest2 : hB (fun c => !wsChar c && c != '/') (renderFieldTail t ++ rest) = true := by
      cases t with
      | nil => simpa [renderFieldTail]
      | cons g t2 => simp [renderFieldTail, hB]; decide
    have hfld : field cfg (renderFieldSpec f ++ (renderFieldTail t ++ rest)) =
        some (⟨f.fname, f.fval⟩, renderFieldTail t ++ rest) := by
      have := field_render cfg f.fname f.spell f.fval (renderFieldTail t ++ rest) hfn
        (by simpa using hfp) hrest2
      simpa [renderFieldSpec, List.append_assoc] using this
    have hfuelOk : t.length ≤ (renderFieldTail t ++ rest).length := by
      have := renderFieldTail_length t
      simp [List.length_append]
      omega
    have haux := sepAux_fields cfg t rest (renderFieldTail t ++ rest).length ht2 hrest hsep hfuelOk
    simp only [List.length_append] at haux
    simp only [renderFields, List.append_assoc]
    simp [pSepTrail, hfld, haux, hsep, fieldVals]

theorem dto_render (cfg : Config) (n : List Char) (fs : List FieldSpec) (rest : List Char)
    (hn : wfIdent n = true) (hfs : fs.all wfFieldSpec = true)
    (hrest : hB (fun c => !wsChar c) rest = true) :
    dto cfg (strL "struct " ++ (n ++ lbrace :: (renderFields fs ++ rbrace :: rest))) =
      some (⟨n, fieldVals fs⟩, rest) := by
  set X := n ++ lbrace :: (renderFields fs ++ rbrace :: rest) with hX
  have hXhard : hB (fun c => !wsChar c && c != '/') X = true := by
    rw [hX]
    exact hB_append_of_ne _ n _ (wfIdent_hard n hn)
      (by rintro h; rw [h] at hn; exact absurd hn (by simp [wfIdent]))
  have hdX : dropWs X = X := dropWs_eq _ (hB_weaken _ hXhard)
  have hidKw : identP (strL "struct " ++ X) = some (strL "struct", ' ' :: X) := by
    have : strL "struct " ++ X = strL "struct" ++ (' ' :: X) := by simp [strL]
    rw [this]
    exact identP_render _ _ (by decide) (by simp [hB]; decide)
  have hidN : identP X = some (n, lbrace :: (renderFields fs ++ rbrace :: rest)) := by
    rw [hX]
    exact identP_render _ _ hn (by simp [hB]; decide)
  have hYhard : hB (fun c => !wsChar c && c != '/') (renderFields fs ++ rbrace :: rest) = true := by
    cases fs with
    | nil => simp [renderFields, hB]; decide
    | cons f t =>
      have hwf : wfFieldSpec f = true := List.all_eq_true.mp hfs f (by simp)
      simp [wfFieldSpec] at hwf
      simp only [renderFields, renderFieldSpec, List.append_assoc, List.cons_append]
      exact hB_append_of_ne _ f.fname _ (wfIdent_hard f.fname hwf.1)
        (by rintro h; have := hwf.1; rw [h] at this; exact absurd this (by simp [wfIdent]))
  have hdY : dropWs (renderFields fs ++ rbrace :: rest) = renderFields fs ++ rbrace :: rest :=
    dropWs_eq _ (hB_weaken _ hYhard)
  have hmcY := multi_comment_none _ hYhard
  have hsepR : pPadded (pChar ',') (rbrace :: rest) = none :=
    sepComma_none _ (by simp [hB]; decide)
  have hfieldR : field cfg (rbrace :: rest) = none :=
    field_none cfg _ (by simp [hB]; decide)
  have hflds := fields_sep_render cfg fs (rbrace :: rest) hfs (by simp [hB]; decide) hsepR hfieldR
  have hmcR : multi_comment (rbrace :: rest) = some ([], rbrace :: rest) :=
    multi_comment_none _ (by simp [hB]; decide)
  have hdRest : dropWs rest = rest := dropWs_eq _ hrest
  have hidKw2 : identP ('s' :: 't' :: 'r' :: 'u' :: 'c' :: 't' :: ' ' :: X) =
      some (strL "struct", ' ' :: X) := hidKw
  have hdS2 : dropWs ('s' :: 't' :: 'r' :: 'u' :: 'c' :: 't' :: ' ' :: X) =
      's' :: 't' :: 'r' :: 'u' :: 'c' :: 't' :: ' ' :: X := rfl
  have hattr2 : attrP ('s' :: 't' :: 'r' :: 'u' :: 'c' :: 't' :: ' ' :: X) = none := rfl
  have hdSpX : dropWs (' ' :: X) = X := by
    rw [dropWs_cons_ws _ _ (by decide), hdX]
  have hdLb : dropWs (lbrace :: (renderFields fs ++ rbrace :: rest)) =
      lbrace :: (renderFields fs ++ rbrace :: rest) := rfl
  have hdRb : dropWs (rbrace :: rest) = rbrace :: rest :=
    dropWs_eq _ (by simp [hB]; decide)
  simp [dto, hdRb, pDelim, pIgnoreThen, pThenIgnore, pMap, pThen, pOpt, pPadded, pChar,
    pKeyword, pPaddedBy, hidKw2, hdS2, hattr2, hdSpX, hdLb,
    hdX, hidN, hdY, hmcY, hflds, hmcR, hdRest, strL]

theorem bcAux_render (t rest : List Char) (fuel : Nat)
    (ht : hasSub (strL "*/") t = false) (hfuel : t.length ≤ fuel) :
    bcAux fuel (t ++ '*' :: '/' :: rest) = some (t, rest) := by
  induction t generalizing fuel with
  | nil =>
    cases fuel with
    | zero => simp [bcAux, startsWithL]
    | succ n => simp [bcAux, startsWithL]
  | cons c t ih =>
    cases fuel with
    | zero => simp at hfuel
    | succ n =>
      have hsw : startsWithL (strL "*/") (c :: (t ++ '*' :: '/' :: rest)) = false := by
        cases t with
        | nil => simp [startsWithL, strL]
        | cons d t2 =>
          have h1 : startsWithL (strL "*/") (c :: d :: t2) = false := by
            cases h : startsWithL (strL "*/") (c :: d :: t2) with
            | false => rfl
            | true => exfalso; simp [hasSub, h] at ht
          simp [startsWithL, strL] at h1 ⊢
          intro hc
          exact h1 hc
      have ht2 : hasSub (strL "*/") t = false := by
        simp [hasSub] at ht
        simp [ht.2]
      have hih := ih n ht2 (by simp at hfuel; omega)
      simp [bcAux, hsw, hih]

theorem comment_line_render (t rest : List Char) (ht : t.contains '\n' = false) :
    comment (strL "//" ++ (t ++ '\n' :: rest)) = some (trimChars t, '\n' :: rest) := by
  have htw := takeWhile_append_eq (fun c => !(c = '\n')) t ('\n' :: rest)
    (by
      intro c hc
      simp
      intro h
      rw [h] at hc
      simp [List.contains] at ht
      exact absurd hc (by simpa using ht))
    (by simp [hB])
  have hps : pStr ['/', '/'] ('/' :: '/' :: (t ++ '\n' :: rest)) =
      some ((), t ++ '\n' :: rest) := pStr_pref (strL "//") _
  simp [comment, pOrElse, line_comment, strL, hps] at htw ⊢
  simp [htw.1, htw.2]

theorem comment_block_render (t rest : List Char) (ht : hasSub (strL "*/") t = false) :
    comment (strL "/*" ++ (t ++ '*' :: '/' :: rest)) = some (trimChars t, rest) := by
  have hbc := bcAux_render t rest (t ++ '*' :: '/' :: rest).length ht
    (by simp [List.length_append])
  have hps : pStr ['/', '*'] ('/' :: '*' :: (t ++ '*' :: '/' :: rest)) =
      some ((), t ++ '*' :: '/' :: rest) := pStr_pref (strL "/*") _
  have hline : line_comment ('/' :: '*' :: (t ++ '*' :: '/' :: rest)) = none := by
    simp [line_comment, strL, pStr]
  simp only [List.length_append, List.length_cons] at hbc
  simp [comment, pOrElse, block_comment, strL, hps, hline, hbc]

theorem ebBody_render (t rest : List Char)
    (hall : t.all (fun c => c != lbrace && c != rbrace) = true) (hne : t ≠ [])
    (hrest : hB (fun c => c = lbrace || c = rbrace) rest = true) (hrne : rest ≠ []) :
    ebBody (t ++ rest) = some (trimChars t, rest) := by
  have htw := takeWhile_append_eq (fun c => !(c = lbrace || c = rbrace)) t rest
    (by
      intro c hc
      have := List.all_eq_true.mp hall c hc
      simpa using this)
    (by
      cases rest with
      | nil => exact absurd rfl hrne
      | cons c r => simpa [hB] using hrest)
  cases t with
  | nil => exact absurd rfl hne
  | cons c t2 =>
    simp [ebBody] at htw ⊢
    simp [htw.1, htw.2]

theorem ebElem_none_rb (n : Nat) (rest : List Char) :
    ebElem (expr_block_f n) (rbrace :: rest) = none := by
  have hcom : pPadded comment (rbrace :: rest) = none :=
    pPadded_comment_none _ (by simp [hB]; decide)
  have hnest : expr_block_f n (rbrace :: rest) = none := by
    cases n with
    | zero => rfl
    | succ m =>
      have hd : dropWs (rbrace :: rest) = rbrace :: rest :=
        dropWs_eq _ (by simp [hB]; decide)
      simp [expr_block_f, pDelim, pIgnoreThen, pThenIgnore, pChar, pPadded, hd,
        (show rbrace ≠ lbrace by decide)]
  have hbody : ebBody (rbrace :: rest) = none := by
    simp [ebBody, List.takeWhile]
  simp [ebElem, pOrElse, pMap, hcom, hnest, hbody]

theorem wfEBs_cons (e : EB) (t : EBs) (h : wfEBs (EBs.cons e t) = true) :
    wfEB e = true ∧ wfEBs t = true := by
  cases e with
  | commentE c => simpa [wfEBs, wfEB] using h
  | nestedE l => simpa [wfEBs, wfEB] using h
  | bodyE b =>
    simp [wfEBs, wfEB] at h ⊢
    exact ⟨h.1.1, h.2⟩

theorem renderEB_ne (e : EB) (he : wfEB e = true) : renderEB e ≠ [] := by
  cases e with
  | commentE c => cases c <;> simp [renderEB, renderComment, strL]
  | nestedE l => simp [renderEB]
  | bodyE b =>
    simp [wfEB, bodySegOk] at he
    cases b with
    | nil => simp at he
    | cons c t => simp [renderEB]

theorem renderEBs_length (l : EBs) (hl : wfEBs l = true) :
    countEBs l ≤ (renderEBs l).length := by
  cases l with
  | nil => simp [countEBs, renderEBs]
  | cons e t =>
    obtain ⟨he, ht⟩ := wfEBs_cons e t hl
    have h1 := renderEBs_length t ht
    have h2 : 1 ≤ (renderEB e).length := by
      cases h : renderEB e with
      | nil => exact absurd h (renderEB_ne e he)
      | cons c r => simp
    simp [countEBs, renderEBs, List.length_append]
    omega

theorem renderEBs_headOk (l : EBs) (hl : wfEBs l = true) (Z : List Char)
    (hz : hB (fun c => !wsChar c) Z = true) :
    hB (fun c => !wsChar c) (renderEBs l ++ Z) = true := by
  cases l with
  | nil => simpa [renderEBs]
  | cons e t =>
    cases e with
    | commentE c =>
      cases c <;> simp [renderEBs, renderEB, renderComment, strL, hB] <;> decide
    | nestedE l2 => simp [renderEBs, renderEB, hB]; decide
    | bodyE b =>
      simp [wfEBs, bodySegOk] at hl
      cases b with
      | nil => simp at hl
      | cons c r =>
        simp [renderEBs, renderEB, hB]
        have h2 := hl.1.1.1
        simp at h2
        exact h2.1

theorem ebs_render_aux (k : Nat) (l : EBs) (hk : sizeOf l ≤ k) (n fuel : Nat)
    (rest : List Char)
    (hl : wfEBs l = true) (hn : depthEBs l ≤ n) (hfuel : countEBs l ≤ fuel) :
    repAux (ebElem (expr_block_f n)) fuel (renderEBs l ++ rbrace :: rest) =
      (valEBs l, rbrace :: rest) := by
  induction k generalizing l n fuel rest with
  | zero =>
    exfalso
    cases l <;> simp at hk
  | succ k ih =>
  cases l with
  | nil =>
    simpa [renderEBs, valEBs] using repAux_stop _ fuel _ (ebElem_none_rb n rest)
  | cons e t =>
    obtain ⟨he, ht⟩ := wfEBs_cons e t hl
    cases fuel with
    | zero => simp [countEBs] at hfuel
    | succ m =>
      have hZnw : hB (fun c => !wsChar c) (renderEBs t ++ rbrace :: rest) = true :=
        renderEBs_headOk t ht _ (by simp [hB]; decide)
      have hdZ : dropWs (renderEBs t ++ rbrace :: rest) = renderEBs t ++ rbrace :: rest :=
        dropWs_eq _ hZnw
      have helem : ebElem (expr_block_f n) (renderEB e ++ (renderEBs t ++ rbrace :: rest)) =
          some (valEB e, renderEBs t ++ rbrace :: rest) := by
        cases e with
        | commentE c =>
          cases c with
          | line txt =>
            have hc : comment (strL "//" ++ (txt ++ '\n' :: (renderEBs t ++ rbrace :: rest))) =
                some (trimChars txt, '\n' :: (renderEBs t ++ rbrace :: rest)) :=
              comment_line_render txt _ (by simpa [wfEB, wfComment] using he)
            have harr : renderEB (EB.commentE (CommentTok.line txt)) ++
                (renderEBs t ++ rbrace :: rest) =
                strL "//" ++ (txt ++ '\n' :: (renderEBs t ++ rbrace :: rest)) := by
              simp [renderEB, renderComment, List.append_assoc]
            rw [harr]
            have hdS : dropWs (strL "//" ++ (txt ++ '\n' :: (renderEBs t ++ rbrace :: rest))) =
                strL "//" ++ (txt ++ '\n' :: (renderEBs t ++ rbrace :: rest)) := by
              refine dropWs_eq _ ?_
              simp [strL, hB]
              decide
            simp [ebElem, pOrElse, pMap, pPadded, hdS, hc, dropWs_cons_ws, valEB,
              (show wsChar '\n' = true by decide), hdZ]
          | block txt =>
            have hc : comment (strL "/*" ++ (txt ++ '*' :: '/' :: (renderEBs t ++ rbrace :: rest))) =
                some (trimChars txt, renderEBs t ++ rbrace :: rest) :=
              comment_block_render txt _ (by simpa [wfEB, wfComment] using he)
            have harr : renderEB (EB.commentE (CommentTok.block txt)) ++
                (renderEBs t ++ rbrace :: rest) =
                strL "/*" ++ (txt ++ '*' :: '/' :: (renderEBs t ++ rbrace :: rest)) := by
              simp [renderEB, renderComment, List.append_assoc, strL]
            rw [harr]
            have hdS : dropWs (strL "/*" ++ (txt ++ '*' :: '/' :: (renderEBs t ++ rbrace :: rest))) =
                strL "/*" ++ (txt ++ '*' :: '/' :: (renderEBs t ++ rbrace :: rest)) := by
              refine dropWs_eq _ ?_
              simp [strL, hB]
              decide
            simp [ebElem, pOrElse, pMap, pPadded, hdS, hc, valEB, hdZ]
        | nestedE l2 =>
          have hn2 : depthEBs l2 + 1 ≤ n := by
            simp [depthEBs, depthEB] at hn
            omega
          cases n with
          | zero => omega
          | succ n2 =>
            have hwl2 : wfEBs l2 = true := by simpa [wfEB] using he
            have hcomN : pPadded comment
                (lbrace :: (renderEBs l2 ++ rbrace :: (renderEBs t ++ rbrace :: rest))) = none := by
              refine pPadded_comment_none _ ?_
              simp [hB]
              decide
            have hinner : repAux (ebElem (expr_block_f n2))
                (renderEBs l2 ++ rbrace :: (renderEBs t ++ rbrace :: rest)).length
                (renderEBs l2 ++ rbrace :: (renderEBs t ++ rbrace :: rest)) =
                (valEBs l2, rbrace :: (renderEBs t ++ rbrace :: rest)) := by
              refine ih l2 (by simp at hk; omega) n2 _ _ hwl2 (by omega) ?_
              have := renderEBs_length l2 hwl2
              simp [List.length_append]
              omega
            have hdI : dropWs (renderEBs l2 ++ rbrace :: (renderEBs t ++ rbrace :: rest)) =
                renderEBs l2 ++ rbrace :: (renderEBs t ++ rbrace :: rest) :=
              dropWs_eq _ (renderEBs_headOk l2 hwl2 _ (by simp [hB]; decide))
            have hdLb : dropWs (lbrace :: (renderEBs l2 ++ rbrace :: (renderEBs t ++ rbrace :: rest))) =
                lbrace :: (renderEBs l2 ++ rbrace :: (renderEBs t ++ rbrace :: rest)) := rfl
            have hcomLb : comment (lbrace :: (renderEBs l2 ++ rbrace :: (renderEBs t ++ rbrace :: rest))) = none :=
              comment_none _ _ (by decide)
            simp only [ebElem] at hinner
            simp only [List.length_append, List.length_cons] at hinner
            have hdRb : dropWs (rbrace :: (renderEBs t ++ rbrace :: rest)) =
                rbrace :: (renderEBs t ++ rbrace :: rest) := rfl
            simp only [renderEB, List.cons_append, List.append_assoc]
            simp [ebElem, pOrElse, pMap, hcomLb, expr_block_f, pDelim, pIgnoreThen,
              pThenIgnore, pPadded, pChar, pRepeated, hdI, hdLb, hdRb, hinner, hdZ, valEB]
        | bodyE b =>
          have hbOk : bodySegOk b = true := by simpa [wfEB] using he
          have hbne : b ≠ [] := by
            intro h
            rw [h] at hbOk
            simp [bodySegOk] at hbOk
          obtain ⟨c0, b0, rfl⟩ : ∃ c0 b0, b = c0 :: b0 := by
            cases b with
            | nil => exact absurd rfl hbne
            | cons c r => exact ⟨c, r, rfl⟩
          have h2 : ((!wsChar c0 && c0 != '/') &&
              (c0 :: b0).all (fun c => c != lbrace && c != rbrace)) = true := hbOk
          rw [Bool.and_eq_true] at h2
          obtain ⟨hHead, hAll⟩ := h2
          have hZbr : hB (fun c => c = lbrace || c = rbrace)
              (renderEBs t ++ rbrace :: rest) = true := by
            cases t with
            | nil => simp [renderEBs, hB]
            | cons e2 t2 =>
              cases e2 with
              | nestedE l2 => simp [renderEBs, renderEB, hB]
              | commentE c => simp [wfEBs] at hl
              | bodyE b2 => simp [wfEBs] at hl
          have hZne : renderEBs t ++ rbrace :: rest ≠ [] := by simp
          have hbody : ebBody (c0 :: (b0 ++ (renderEBs t ++ rbrace :: rest))) =
              some (trimChars (c0 :: b0), renderEBs t ++ rbrace :: rest) := by
            simpa [List.cons_append] using ebBody_render (c0 :: b0) _ hAll (by simp) hZbr hZne
          have hcomB : pPadded comment (c0 :: (b0 ++ (renderEBs t ++ rbrace :: rest))) = none := by
            refine pPadded_comment_none _ ?_
            simpa [hB] using hHead
          have hc0brace : c0 ≠ lbrace := by
            have h4 := hAll
            simp [List.all_cons] at h4
            exact h4.1.1
          have hc0ws : wsChar c0 = false := by
            have h5 := hHead
            simp at h5
            exact h5.1
          have hnestB : expr_block_f n (c0 :: (b0 ++ (renderEBs t ++ rbrace :: rest))) = none := by
            cases n with
            | zero => rfl
            | succ n2 =>
              have hdB : dropWs (c0 :: (b0 ++ (renderEBs t ++ rbrace :: rest))) =
                  c0 :: (b0 ++ (renderEBs t ++ rbrace :: rest)) := by
                refine dropWs_eq _ ?_
                simp [hB, hc0ws]
              simp [expr_block_f, pDelim, pIgnoreThen, pThenIgnore, pPadded, pChar,
                hdB, hc0brace]
          simp [ebElem, pOrElse, pMap, hcomB, hnestB, renderEB, hbody, valEB]
      have hcount : countEBs t ≤ m := by simp [countEBs] at hfuel; omega
      have hdepth : depthEBs t ≤ n := by simp [depthEBs] at hn; omega
      have hih := ih t (by cases e <;> simp at hk <;> omega) n m rest ht hdepth hcount
      simp only [renderEBs, valEBs, List.append_assoc]
      simp [repAux, helem, hih]

theorem ebs_render (l : EBs) (n fuel : Nat) (rest : List Char)
    (hl : wfEBs l = true) (hn : depthEBs l ≤ n) (hfuel : countEBs l ≤ fuel) :
    repAux (ebElem (expr_block_f n)) fuel (renderEBs l ++ rbrace :: rest) =
      (valEBs l, rbrace :: rest) :=
  ebs_render_aux (sizeOf l) l (Nat.le_refl _) n fuel rest hl hn hfuel

theorem depthEBs_le_render_aux (k : Nat) (l : EBs) (hk : sizeOf l ≤ k)
    (hl : wfEBs l = true) : depthEBs l ≤ (renderEBs l).length := by
  induction k generalizing l with
  | zero =>
    exfalso
    cases l <;> simp at hk
  | succ k ih =>
    cases l with
    | nil => simp [depthEBs, renderEBs]
    | cons e t =>
      obtain ⟨he, ht⟩ := wfEBs_cons e t hl
      have h2 := ih t (by cases e <;> simp at hk <;> omega) ht
      cases e with
      | commentE c =>
        simp [depthEBs, depthEB, renderEBs, List.length_append]
        omega
      | bodyE b =>
        simp [depthEBs, depthEB, renderEBs, List.length_append]
        omega
      | nestedE l2 =>
        have h3 := ih l2 (by simp at hk; omega) (by simpa [wfEB] using he)
        simp [depthEBs, depthEB, renderEBs, renderEB, List.length_append]
        omega

theorem expr_block_f_render (l : EBs) (n : Nat) (rest : List Char)
    (hl : wfEBs l = true) (hn : depthEBs l + 1 ≤ n)
    (hrest : hB (fun c => !wsChar c) rest = true) :
    expr_block_f n (lbrace :: (renderEBs l ++ rbrace :: rest)) = some (valEBs l, rest) := by
  cases n with
  | zero => omega
  | succ n2 =>
    have hinner := ebs_render l n2 (renderEBs l ++ rbrace :: rest).length rest hl
      (by omega)
      (by
        have := renderEBs_length l hl
        simp [List.length_append]
        omega)
    have hdI : dropWs (renderEBs l ++ rbrace :: rest) = renderEBs l ++ rbrace :: rest :=
      dropWs_eq _ (renderEBs_headOk l hl _ (by simp [hB]; decide))
    have hdLb : dropWs (lbrace :: (renderEBs l ++ rbrace :: rest)) =
        lbrace :: (renderEBs l ++ rbrace :: rest) := rfl
    have hdRb : dropWs (rbrace :: rest) = rbrace :: rest :=
      dropWs_eq _ (by
        cases rest with
        | nil => simp [hB]; decide
        | cons c r => simp [hB]; decide)
    have hdRest : dropWs rest = rest := dropWs_eq _ hrest
    simp only [ebElem] at hinner
    simp only [List.length_append, List.length_cons] at hinner
    simp [expr_block_f, pDelim, pIgnoreThen, pThenIgnore, pPadded, pChar, pRepeated,
      ebElem, hdLb, hdI, hinner, hdRb, hdRest]

theorem expr_block_render (l : EBs) (rest : List Char)
    (hl : wfEBs l = true) (hrest : hB (fun c => !wsChar c) rest = true) :
    expr_block (lbrace :: (renderEBs l ++ rbrace :: rest)) = some (valEBs l, rest) := by
  have hd := depthEBs_le_render_aux (sizeOf l) l (Nat.le_refl _) hl
  refine expr_block_f_render l _ rest hl ?_ hrest
  simp [List.length_append]
  omega

/-- C1 helper: whatever the signature parsed to, a well-formed rendered
body block is skipped exactly and the Rpc is built from the signature
alone. -/
theorem rpc_body_skip (cfg : Config) (s : List Char)
    (sig : (List Char × List Field) × Option Ty) (l : EBs) (rest : List Char)
    (hl : wfEBs l = true) (hrest : hB (fun c => !wsChar c) rest = true)
    (hsig : rpcSig cfg s = some (sig, lbrace :: (renderEBs l ++ rbrace :: rest))) :
    rpc cfg s = some (⟨sig.1.1, sig.1.2, sig.2⟩, rest) := by
  have heb := expr_block_render l rest hl hrest
  have hdLb : dropWs (lbrace :: (renderEBs l ++ rbrace :: rest)) =
      lbrace :: (renderEBs l ++ rbrace :: rest) := rfl
  have hdRest : dropWs rest = rest := dropWs_eq _ hrest
  simp [rpc, pMap, pThenIgnore, hsig, pPadded, hdLb, heb, hdRest]

theorem rpcSig_render (cfg : Config) (n : List Char) (ps : List FieldSpec)
    (r : Option FieldSpec) (rest2 : List Char)
    (hn : wfIdent n = true) (hps : ps.all wfFieldSpec = true)
    (hr : r.all (fun f => primPairs.contains (f.spell, f.fval)) = true) :
    rpcSig cfg (strL "fn " ++ (n ++ '(' :: (renderFields ps ++ ')' ::
        (retRender r ++ lbrace :: rest2)))) =
      some (((n, fieldVals ps), r.map fun f => f.fval), lbrace :: rest2) := by
  have hnNe : n ≠ [] := by rintro h; rw [h] at hn; exact absurd hn (by simp [wfIdent])
  have hdRetLb : dropWs (retRender r ++ lbrace :: rest2) = retRender r ++ lbrace :: rest2 := by
    refine dropWs_eq _ ?_
    cases r with
    | none => simp [retRender, hB]; decide
    | some f => simp [retRender, strL, hB]; decide
  have hYhard : hB (fun c => !wsChar c && c != '/')
      (renderFields ps ++ ')' :: (retRender r ++ lbrace :: rest2)) = true := by
    cases ps with
    | nil => simp [renderFields, hB]; decide
    | cons f t =>
      have hwf : wfFieldSpec f = true := List.all_eq_true.mp hps f (by simp)
      simp [wfFieldSpec] at hwf
      simp only [renderFields, renderFieldSpec, List.append_assoc, List.cons_append]
      exact hB_append_of_ne _ f.fname _ (wfIdent_hard f.fname hwf.1)
        (by rintro h; have := hwf.1; rw [h] at this; exact absurd this (by simp [wfIdent]))
  have hdN : dropWs (n ++ '(' :: (renderFields ps ++ ')' :: (retRender r ++ lbrace :: rest2))) =
      n ++ '(' :: (renderFields ps ++ ')' :: (retRender r ++ lbrace :: rest2)) :=
    dropWs_eq _ (hB_weaken _ (hB_append_of_ne _ n _ (wfIdent_hard n hn) hnNe))
  have hfn2 : identP ('f' :: 'n' :: ' ' ::
      (n ++ '(' :: (renderFields ps ++ ')' :: (retRender r ++ lbrace :: rest2)))) =
      some (strL "fn", ' ' ::
        (n ++ '(' :: (renderFields ps ++ ')' :: (retRender r ++ lbrace :: rest2)))) :=
    identP_render (strL "fn") _ (by decide) (by simp [hB]; decide)
  have hdSp : dropWs (' ' ::
      (n ++ '(' :: (renderFields ps ++ ')' :: (retRender r ++ lbrace :: rest2)))) =
      n ++ '(' :: (renderFields ps ++ ')' :: (retRender r ++ lbrace :: rest2)) := by
    rw [dropWs_cons_ws _ _ (by decide), hdN]
  have hidN : identP (n ++ '(' :: (renderFields ps ++ ')' :: (retRender r ++ lbrace :: rest2))) =
      some (n, '(' :: (renderFields ps ++ ')' :: (retRender r ++ lbrace :: rest2))) :=
    identP_render _ _ hn (by simp [hB]; decide)
  have hdPar : dropWs ('(' :: (renderFields ps ++ ')' :: (retRender r ++ lbrace :: rest2))) =
      '(' :: (renderFields ps ++ ')' :: (retRender r ++ lbrace :: rest2)) := rfl
  have hdY : dropWs (renderFields ps ++ ')' :: (retRender r ++ lbrace :: rest2)) =
      renderFields ps ++ ')' :: (retRender r ++ lbrace :: rest2) :=
    dropWs_eq _ (hB_weaken _ hYhard)
  have hmcY := multi_comment_none _ hYhard
  have hsepCl : pPadded (pChar ',') (')' :: (retRender r ++ lbrace :: rest2)) = none :=
    sepComma_none _ (by simp [hB]; decide)
  have hfieldCl : field cfg (')' :: (retRender r ++ lbrace :: rest2)) = none :=
    field_none cfg _ (by simp [hB]; decide)
  have hflds := fields_sep_render cfg ps (')' :: (retRender r ++ lbrace :: rest2)) hps
    (by simp [hB]; decide) hsepCl hfieldCl
  have hmcCl : multi_comment (')' :: (retRender r ++ lbrace :: rest2)) =
      some ([], ')' :: (retRender r ++ lbrace :: rest2)) :=
    multi_comment_none _ (by simp [hB]; decide)
  have hdRp : dropWs (')' :: (retRender r ++ lbrace :: rest2)) =
      ')' :: (retRender r ++ lbrace :: rest2) := rfl
  have hdLb3 : dropWs (lbrace :: rest2) = lbrace :: rest2 := rfl
  have harr : strL "fn " ++ (n ++ '(' :: (renderFields ps ++ ')' ::
      (retRender r ++ lbrace :: rest2))) =
      'f' :: 'n' :: ' ' :: (n ++ '(' :: (renderFields ps ++ ')' ::
        (retRender r ++ lbrace :: rest2))) := rfl
  have hdF : dropWs ('f' :: 'n' :: ' ' :: (n ++ '(' :: (renderFields ps ++ ')' ::
      (retRender r ++ lbrace :: rest2)))) =
      'f' :: 'n' :: ' ' :: (n ++ '(' :: (renderFields ps ++ ')' ::
        (retRender r ++ lbrace :: rest2))) := rfl
  cases r with
  | none =>
    have hps3 : pStr ['-', '>'] (lbrace :: rest2) = none := rfl
    simp only [retRender, List.nil_append] at hdRetLb hflds hmcCl hsepCl hfieldCl hmcY hYhard hdY hdN hidN hdSp hfn2 hdPar hdRp hdF ⊢
    simp [rpcSig, pThen, pIgnoreThen, pOpt, pKeyword, pPadded, pChar, pDelim,
      pThenIgnore, pPaddedBy, strL, hdF, hfn2, hdSp, hidN, hdPar, hdY, hmcY, hflds,
      hmcCl, hdRp, hdLb3, hps3]
  | some f =>
    have hcontains : (f.spell, f.fval) ∈ primPairs := by simpa using hr
    have hps2 : pStr ['-', '>'] ('-' :: '>' :: (f.spell ++ lbrace :: rest2)) =
        some ((), f.spell ++ lbrace :: rest2) := pStr_pref (strL "->") _
    have hdSpell : dropWs (f.spell ++ lbrace :: rest2) = f.spell ++ lbrace :: rest2 := by
      refine dropWs_eq _ ?_
      refine hB_weaken _ (hB_append_of_ne _ _ _ (primPairs_head_hard (f.spell, f.fval) hcontains) ?_)
      exact primPairs_ne_nil _ hcontains
    have hty := ty_prim (f.spell, f.fval) hcontains cfg (lbrace :: rest2)
    simp [retRender, strL, List.cons_append, List.append_assoc] at hdRetLb hflds hmcCl hsepCl hfieldCl hmcY hYhard hdY hdN hidN hdSp hfn2 hdPar hdRp hdF ⊢
    simp [rpcSig, pThen, pIgnoreThen, pOpt, pKeyword, pPadded, pChar, pDelim,
      pThenIgnore, pPaddedBy, strL, List.append_assoc, hdF, hfn2, hdSp, hidN, hdPar,
      hdY, hmcY, hflds, hmcCl, hdRp, hdRetLb, hdLb3, hps2, hdSpell, hty]

/-- A rendered declaration with a `{}` body parses as an Rpc built from
the signature alone. -/
theorem rpc_render (cfg : Config) (n : List Char) (ps : List FieldSpec)
    (r : Option FieldSpec) (rest : List Char)
    (hn : wfIdent n = true) (hps : ps.all wfFieldSpec = true)
    (hr : r.all (fun f => primPairs.contains (f.spell, f.fval)) = true)
    (hrest : hB (fun c => !wsChar c) rest = true) :
    rpc cfg (strL "fn " ++ (n ++ '(' :: (renderFields ps ++ ')' ::
        (retRender r ++ lbrace :: rbrace :: rest)))) =
      some (⟨n, fieldVals ps, r.map fun f => f.fval⟩, rest) := by
  have hsig := rpcSig_render cfg n ps r (rbrace :: rest) hn hps hr
  have := rpc_body_skip cfg _ ((n, fieldVals ps), r.map fun f => f.fval) EBs.nil rest
    (by decide) hrest (by simpa [renderEBs] using hsig)
  simpa using this

theorem dto_stop (cfg : Config) (s : List Char)
    (hs : s = [] ∨ ∃ t2, s = rbrace :: t2) : dto cfg s = none := by
  rcases hs with rfl | ⟨t2, rfl⟩ <;> rfl

theorem rpc_stop (cfg : Config) (s : List Char)
    (hs : s = [] ∨ ∃ t2, s = rbrace :: t2) : rpc cfg s = none := by
  rcases hs with rfl | ⟨t2, rfl⟩ <;> rfl

theorem namespace_f_stop (cfg : Config) (m : Nat) (s : List Char)
    (hs : s = [] ∨ ∃ t2, s = rbrace :: t2) : namespace_f cfg m s = none := by
  rcases hs with rfl | ⟨t2, rfl⟩ <;> cases m <;> rfl

theorem multi_comment_stop (s : List Char)
    (hs : s = [] ∨ ∃ t2, s = rbrace :: t2) : multi_comment s = some ([], s) := by
  rcases hs with rfl | ⟨t2, rfl⟩
  · rfl
  · exact multi_comment_none _ (by simp [hB]; decide)

theorem nsChildElem_stop (cfg : Config) (nsp : P (List Char × List Child))
    (s : List Char) (hs : s = [] ∨ ∃ t2, s = rbrace :: t2)
    (hnsp : nsp s = none) : nsChildElem cfg nsp s = none := by
  have hmc := multi_comment_stop s hs
  have hd := dto_stop cfg s hs
  have hr := rpc_stop cfg s hs
  simp [nsChildElem, pPaddedBy, pThenIgnore, pIgnoreThen, pOrElse, pMap, hmc, hd, hr, hnsp]

theorem renderDecls_hard (l : Decls) (rest : List Char)
    (hrest : hB (fun c => !wsChar c && c != '/') rest = true) :
    hB (fun c => !wsChar c && c != '/') (renderDecls l ++ rest) = true := by
  cases l with
  | nil => simpa [renderDecls]
  | cons d t =>
    cases d with
    | dtoD n fs => simp [renderDecls, renderDecl, strL, hB]; decide
    | rpcD n ps r => simp [renderDecls, renderDecl, strL, hB]; decide
    | nsD n b => cases b <;> simp [renderDecls, renderDecl, strL, hB] <;> decide

theorem renderDecl_ne (d : Decl) : renderDecl d ≠ [] := by
  cases d with
  | dtoD n fs => simp [renderDecl, strL]
  | rpcD n ps r => simp [renderDecl, strL]
  | nsD n b => cases b <;> simp [renderDecl, strL]

theorem countDecls_le_render_aux (k : Nat) (l : Decls) (hk : sizeOf l ≤ k) :
    countDecls l ≤ (renderDecls l).length := by
  induction k generalizing l with
  | zero => exfalso; cases l <;> simp at hk
  | succ k ih =>
    cases l with
    | nil => simp [countDecls, renderDecls]
    | cons d t =>
      have hih := ih t (by cases d <;> simp at hk <;> omega)
      have h2 : 1 ≤ (renderDecl d).length := by
        cases h : renderDecl d with
        | nil => exact absurd h (renderDecl_ne d)
        | cons c r => simp
      simp [countDecls, renderDecls, List.length_append]
      omega

theorem countDecls_le_render (l : Decls) : countDecls l ≤ (renderDecls l).length :=
  countDecls_le_render_aux (sizeOf l) l (Nat.le_refl _)

/-- The element of `namespace_children` parses one rendered declaration,
given that the namespace alternative `nsp` handles a namespace
declaration at this input (discharged below for `namespace_f` and the
self-fueled `namespace`). -/
theorem nsChildElem_render (cfg : Config) (nsp : P (List Char × List Child))
    (d : Decl) (rest : List Char) (hd : wfDecl d = true)
    (hrest : hB (fun c => !wsChar c && c != '/') rest = true)
    (hns : ∀ nm body, d = Decl.nsD nm body →
      nsp (renderDecl d ++ rest) = some ((nm, nsBodyVal body), rest)) :
    nsChildElem cfg nsp (renderDecl d ++ rest) = some (valDecl d, rest) := by
  have hmcR := multi_comment_none _ hrest
  cases d with
  | dtoD n fs =>
    simp [wfDecl] at hd
    have hdto := dto_render cfg n fs rest hd.1 (List.all_eq_true.mpr hd.2) (hB_weaken _ hrest)
    have hmcL : multi_comment (renderDecl (Decl.dtoD n fs) ++ rest) =
        some ([], renderDecl (Decl.dtoD n fs) ++ rest) :=
      multi_comment_none _ (by simp [renderDecl, strL, hB]; decide)
    simp only [renderDecl, List.append_assoc, List.cons_append, List.singleton_append, List.nil_append] at hmcL ⊢
    simp [nsChildElem, pPaddedBy, pThenIgnore, pIgnoreThen, pOrElse, pMap, hmcL,
      hdto, hmcR, valDecl]
  | rpcD n ps r =>
    simp [wfDecl] at hd
    have hrpc := rpc_render cfg n ps r rest hd.1.1 (List.all_eq_true.mpr hd.1.2)
      (by
        cases r with
        | none => rfl
        | some f => simpa using hd.2)
      (hB_weaken _ hrest)
    have hmcL : multi_comment (renderDecl (Decl.rpcD n ps r) ++ rest) =
        some ([], renderDecl (Decl.rpcD n ps r) ++ rest) :=
      multi_comment_none _ (by simp [renderDecl, strL, hB]; decide)
    have hdtoF : dto cfg (renderDecl (Decl.rpcD n ps r) ++ rest) = none := rfl
    simp only [renderDecl, List.append_assoc, List.cons_append, List.singleton_append, List.nil_append] at hmcL hdtoF hrpc ⊢
    simp [nsChildElem, pPaddedBy, pThenIgnore, pIgnoreThen, pOrElse, pMap, hmcL,
      hdtoF, hrpc, hmcR, valDecl]
  | nsD nm body =>
    have hmcL : multi_comment (renderDecl (Decl.nsD nm body) ++ rest) =
        some ([], renderDecl (Decl.nsD nm body) ++ rest) :=
      multi_comment_none _ (by cases body <;> simp [renderDecl, strL, hB] <;> decide)
    have hdtoF : dto cfg (renderDecl (Decl.nsD nm body) ++ rest) = none := by
      cases body <;> rfl
    have hrpcF : rpc cfg (renderDecl (Decl.nsD nm body) ++ rest) = none := by
      cases body <;> rfl
    have hnsp := hns nm body rfl
    cases body <;>
      simp [nsChildElem, pPaddedBy, pThenIgnore, pIgnoreThen, pOrElse, pMap, hmcL,
        hdtoF, hrpcF, hnsp, hmcR, valDecl, nsBodyVal]

theorem wfDecls_cons (d : Decl) (t : Decls) (h : wfDecls (Decls.cons d t) = true) :
    wfDecl d = true ∧ wfDecls t = true := by
  simpa [wfDecls] using h

theorem ns_dev (cfg : Config) (k : Nat) :
    (∀ (nm : List Char) (body : Option Decls), sizeOf (Decl.nsD nm body) ≤ k →
      wfDecl (Decl.nsD nm body) = true →
      ∀ (m : Nat) (rest : List Char), ndepthDecl (Decl.nsD nm body) ≤ m →
        hB (fun c => !wsChar c && c != '/') rest = true →
        namespace_f cfg m (renderDecl (Decl.nsD nm body) ++ rest) =
          some ((nm, nsBodyVal body), rest)) ∧
    (∀ l : Decls, sizeOf l ≤ k → wfDecls l = true →
      ∀ (m fuel : Nat) (rest : List Char), ndepthDecls l ≤ m → countDecls l ≤ fuel →
        (rest = [] ∨ ∃ t2, rest = rbrace :: t2) →
        repAux (nsChildElem cfg (namespace_f cfg m)) fuel (renderDecls l ++ rest) =
          (valDecls l, rest)) := by
  induction k with
  | zero =>
    constructor
    · intro nm body hk
      exfalso
      simp at hk
    · intro l hk
      exfalso
      cases l <;> simp at hk
  | succ k ih =>
    obtain ⟨ihA, ihB⟩ := ih
    constructor
    · intro nm body hk hwf m rest hm hrest
      have hnm : wfIdent nm = true := by
        cases body <;> simp [wfDecl] at hwf
        · exact hwf
        · exact hwf.1
      have hnmNe : nm ≠ [] := by
        rintro h; rw [h] at hnm; exact absurd hnm (by simp [wfIdent])
      cases m with
      | zero =>
        exfalso
        cases body <;> simp [ndepthDecl] at hm
      | succ m2 =>
      cases body with
      | none =>
        have harr : renderDecl (Decl.nsD nm none) ++ rest =
            'm' :: 'o' :: 'd' :: ' ' :: (nm ++ ';' :: rest) := by
          simp [renderDecl, strL]
        have hid : identP ('m' :: 'o' :: 'd' :: ' ' :: (nm ++ ';' :: rest)) =
            some (strL "mod", ' ' :: (nm ++ ';' :: rest)) :=
          identP_render (strL "mod") _ (by decide) (by simp [hB]; decide)
        have hdM : dropWs ('m' :: 'o' :: 'd' :: ' ' :: (nm ++ ';' :: rest)) =
            'm' :: 'o' :: 'd' :: ' ' :: (nm ++ ';' :: rest) := rfl
        have hdSp : dropWs (' ' :: (nm ++ ';' :: rest)) = nm ++ ';' :: rest := by
          rw [dropWs_cons_ws _ _ (by decide)]
          exact dropWs_eq _ (hB_weaken _ (hB_append_of_ne _ nm _ (wfIdent_hard nm hnm) hnmNe))
        have hidN : identP (nm ++ ';' :: rest) = some (nm, ';' :: rest) :=
          identP_render _ _ hnm (by simp [hB]; decide)
        have hdSemi : dropWs (';' :: rest) = ';' :: rest := rfl
        have hdRest : dropWs rest = rest := dropWs_eq _ (hB_weaken _ hrest)
        rw [harr]
        simp [namespace_f, pMap, pThen, pIgnoreThen, pOpt, pKeyword, pPadded, pChar,
          pOrElse, strL, hdM, hid, hdSp, hidN, hdSemi, hdRest, nsBodyVal]
      | some l =>
        have hwfl : wfDecls l = true := by simp [wfDecl] at hwf; exact hwf.2
        have harr : renderDecl (Decl.nsD nm (some l)) ++ rest =
            'm' :: 'o' :: 'd' :: ' ' :: (nm ++ lbrace :: (renderDecls l ++ rbrace :: rest)) := by
          simp [renderDecl, strL]
        have hid : identP ('m' :: 'o' :: 'd' :: ' ' ::
            (nm ++ lbrace :: (renderDecls l ++ rbrace :: rest))) =
            some (strL "mod", ' ' :: (nm ++ lbrace :: (renderDecls l ++ rbrace :: rest))) :=
          identP_render (strL "mod") _ (by decide) (by simp [hB]; decide)
        have hdM : dropWs ('m' :: 'o' :: 'd' :: ' ' ::
            (nm ++ lbrace :: (renderDecls l ++ rbrace :: rest))) =
            'm' :: 'o' :: 'd' :: ' ' ::
              (nm ++ lbrace :: (renderDecls l ++ rbrace :: rest)) := rfl
        have hdSp : dropWs (' ' :: (nm ++ lbrace :: (renderDecls l ++ rbrace :: rest))) =
            nm ++ lbrace :: (renderDecls l ++ rbrace :: rest) := by
          rw [dropWs_cons_ws _ _ (by decide)]
          exact dropWs_eq _ (hB_weaken _ (hB_append_of_ne _ nm _ (wfIdent_hard nm hnm) hnmNe))
        have hidN : identP (nm ++ lbrace :: (renderDecls l ++ rbrace :: rest)) =
            some (nm, lbrace :: (renderDecls l ++ rbrace :: rest)) :=
          identP_render _ _ hnm (by simp [hB]; decide)
        have hdLb : dropWs (lbrace :: (renderDecls l ++ rbrace :: rest)) =
            lbrace :: (renderDecls l ++ rbrace :: rest) := rfl
        have hdInner : dropWs (renderDecls l ++ rbrace :: rest) =
            renderDecls l ++ rbrace :: rest :=
          dropWs_eq _ (hB_weaken _ (renderDecls_hard l _ (by simp [hB]; decide)))
        have hlist := ihB l (by simp at hk; omega) hwfl m2
          (renderDecls l ++ rbrace :: rest).length (rbrace :: rest)
          (by simp [ndepthDecl] at hm; omega)
          (by
            have := countDecls_le_render l
            simp [List.length_append]
            omega)
          (Or.inr ⟨rest, rfl⟩)
        have hdRb : dropWs (rbrace :: rest) = rbrace :: rest := rfl
        have hdRest : dropWs rest = rest := dropWs_eq _ (hB_weaken _ hrest)
        rw [harr]
        simp only [List.length_append, List.length_cons] at hlist
        simp [namespace_f, pMap, pThen, pIgnoreThen, pOpt, pKeyword, pPadded, pChar,
          pOrElse, pDelim, pThenIgnore, namespace_children, pRepeated, strL,
          (show ¬ lbrace = ';' by decide), hdM, hid, hdSp, hidN, hdLb, hdInner,
          hlist, hdRb, hdRest, nsBodyVal]
    · intro l hk hwf m fuel rest hm hfuel hstop
      cases l with
      | nil =>
        have hstopElem := nsChildElem_stop cfg (namespace_f cfg m) rest hstop
          (namespace_f_stop cfg m rest hstop)
        simpa [renderDecls, valDecls] using repAux_stop _ fuel _ hstopElem
      | cons d t =>
        obtain ⟨hd, ht⟩ := wfDecls_cons d t hwf
        cases fuel with
        | zero => simp [countDecls] at hfuel
        | succ f2 =>
        have hrestHard : hB (fun c => !wsChar c && c != '/') rest = true := by
          rcases hstop with rfl | ⟨t2, rfl⟩
          · rfl
          · simp [hB]; decide
        have htailHard := renderDecls_hard t _ hrestHard
        have helem := nsChildElem_render cfg (namespace_f cfg m) d
          (renderDecls t ++ rest) hd htailHard
          (by
            rintro nm body rfl
            refine ihA nm body (by simp at hk ⊢; omega) hd m _ ?_ htailHard
            simp [ndepthDecls] at hm
            omega)
        have hih := ihB t (by cases d <;> simp at hk <;> omega) ht m f2 rest
          (by simp [ndepthDecls] at hm; omega)
          (by simp [countDecls] at hfuel; omega) hstop
        simp only [renderDecls, List.append_assoc]
        simp [repAux, helem, hih, valDecls]

theorem ndepth_le_render_aux (k : Nat) :
    (∀ d : Decl, sizeOf d ≤ k → ndepthDecl d ≤ (renderDecl d).length) ∧
    (∀ l : Decls, sizeOf l ≤ k → ndepthDecls l ≤ (renderDecls l).length) := by
  induction k with
  | zero =>
    constructor
    · intro d hk; exfalso; cases d <;> simp at hk
    · intro l hk; exfalso; cases l <;> simp at hk
  | succ k ih =>
    obtain ⟨ihA, ihB⟩ := ih
    constructor
    · intro d hk
      cases d with
      | dtoD n fs => simp [ndepthDecl]
      | rpcD n ps r => simp [ndepthDecl]
      | nsD nm body =>
        cases body with
        | none => simp [ndepthDecl, renderDecl, strL]
        | some l =>
          have := ihB l (by simp at hk; omega)
          simp [ndepthDecl, renderDecl, strL, List.length_append]
          omega
    · intro l hk
      cases l with
      | nil => simp [ndepthDecls, renderDecls]
      | cons d t =>
        have hk2 : sizeOf d ≤ k ∧ sizeOf t ≤ k := by
          cases d <;> simp at hk ⊢ <;> omega
        have h1 := ihA d hk2.1
        have h2 := ihB t hk2.2
        simp [ndepthDecls, renderDecls, List.length_append]
        omega

/-- A rendered namespace declaration parses with the self-fueled
`namespace` rule. -/
theorem namespaceP_render (cfg : Config) (nm : List Char) (body : Option Decls)
    (rest : List Char) (hwf : wfDecl (Decl.nsD nm body) = true)
    (hrest : hB (fun c => !wsChar c && c != '/') rest = true) :
    namespaceP cfg (renderDecl (Decl.nsD nm body) ++ rest) =
      some ((nm, nsBodyVal body), rest) := by
  have hdep := (ndepth_le_render_aux (sizeOf (Decl.nsD nm body))).1 (Decl.nsD nm body)
    (Nat.le_refl _)
  refine (ns_dev cfg (sizeOf (Decl.nsD nm body))).1 nm body (Nat.le_refl _) hwf
    ((renderDecl (Decl.nsD nm body) ++ rest).length + 1) rest ?_ hrest
  simp [List.length_append]
  omega

/-- The chunk-top-level loop over rendered declarations. -/
theorem chunk_loop (cfg : Config) (kk : Nat) (l : Decls) (hk : sizeOf l ≤ kk)
    (hl : wfDecls l = true) (fuel : Nat) (hfuel : countDecls l ≤ fuel) :
    repAux (nsChildElem cfg (namespaceP cfg)) fuel (renderDecls l) =
      (valDecls l, []) := by
  induction kk generalizing l fuel with
  | zero => exfalso; cases l <;> simp at hk
  | succ kk ih =>
    cases l with
    | nil =>
      have hstopElem := nsChildElem_stop cfg (namespaceP cfg) [] (Or.inl rfl) rfl
      simpa [renderDecls, valDecls] using repAux_stop _ fuel _ hstopElem
    | cons d t =>
      obtain ⟨hd, ht⟩ := wfDecls_cons d t hl
      cases fuel with
      | zero => simp [countDecls] at hfuel
      | succ f2 =>
      have htailHard := renderDecls_hard t ([] : List Char) rfl
      have helem : nsChildElem cfg (namespaceP cfg) (renderDecl d ++ renderDecls t) =
          some (valDecl d, renderDecls t) := by
        have := nsChildElem_render cfg (namespaceP cfg) d (renderDecls t) hd
          (by simpa using htailHard)
          (by
            rintro nm body rfl
            exact namespaceP_render cfg nm body (renderDecls t) hd (by simpa using htailHard))
        exact this
      have hih := ih t (by cases d <;> simp at hk <;> omega) ht f2
        (by simp [countDecls] at hfuel; omega)
      simp only [renderDecls]
      simp [repAux, helem, hih, valDecls]

theorem prelude_elem_stop (cfg : Config) (l : Decls) :
    pPadded (pOrElse (pMap (fun _ => ()) use_decl) (pMap (fun _ => ()) comment))
      (renderDecls l) = none := by
  cases l with
  | nil => rfl
  | cons d t =>
    cases d with
    | dtoD n fs => simp only [renderDecls, renderDecl, List.append_assoc, List.cons_append, List.nil_append, strL]; rfl
    | rpcD n ps r => simp only [renderDecls, renderDecl, List.append_assoc, List.cons_append, List.nil_append, strL]; rfl
    | nsD n b =>
      cases b <;>
        simp only [renderDecls, renderDecl, List.append_assoc, List.cons_append, List.nil_append, strL] <;> rfl

/-- A chunk consisting of rendered declarations parses to exactly their
values, in order. -/
theorem parse_chunk_render (cfg : Config) (l : Decls) (hl : wfDecls l = true) :
    parse_chunk cfg (renderDecls l) = some (valDecls l) := by
  have hpre := prelude_elem_stop cfg l
  have hloop := chunk_loop cfg (sizeOf l) l (Nat.le_refl _) hl (renderDecls l).length
    (countDecls_le_render l)
  have hdrop : dropWs (renderDecls l) = renderDecls l := by
    refine dropWs_eq _ (hB_weaken _ (by simpa using renderDecls_hard l ([] : List Char) rfl))
  have hdnil : dropWs ([] : List Char) = [] := rfl
  simp [parse_chunk, chunk_children, pThenIgnore, pIgnoreThen, pRepeated, pPadded,
    repAux_stop _ _ _ hpre, hdrop, namespace_children, hloop, pEnd, hdnil]


theorem length_dropWhile_le (p : Char → Bool) (l : List Char) :
    (l.dropWhile p).length ≤ l.length := by
  induction l with
  | nil => simp
  | cons c t ih =>
    by_cases h : p c
    · simp [List.dropWhile, h]
      omega
    · simp [List.dropWhile, h]

theorem dropWs_idem (s : List Char) : dropWs (dropWs s) = dropWs s := by
  induction s with
  | nil => rfl
  | cons c t ih =>
    by_cases h : wsChar c
    · simp [dropWs, List.dropWhile, h] at ih ⊢
      exact ih
    · simp [dropWs, List.dropWhile, h]

theorem pPadded_dropWs (p : P α) (s : List Char) :
    pPadded p (dropWs s) = pPadded p s := by
  simp [pPadded, dropWs_idem]

theorem bcAux_progress (fuel : Nat) (t b r : List Char)
    (h : bcAux fuel t = some (b, r)) : r.length + 2 ≤ t.length := by
  induction fuel generalizing t b with
  | zero =>
    simp [bcAux] at h
    rcases h with ⟨hsw, h1, h2⟩
    cases t with
    | nil => simp [startsWithL, strL] at hsw
    | cons c t2 =>
      cases t2 with
      | nil => simp [startsWithL, strL] at hsw
      | cons d t3 =>
        subst h2
        simp
  | succ n ih =>
    by_cases hsw : startsWithL (strL "*/") t = true
    · simp [bcAux, hsw] at h
      rcases h with ⟨h1, h2⟩
      cases t with
      | nil => simp [startsWithL, strL] at hsw
      | cons c t2 =>
        cases t2 with
        | nil => simp [startsWithL, strL] at hsw
        | cons d t3 =>
          subst h2
          simp
    · cases t with
      | nil => simp [bcAux, hsw] at h
      | cons c t2 =>
        simp [bcAux, hsw] at h
        rcases h2 : bcAux n t2 with _ | ⟨b2, r2⟩
        · rw [h2] at h
          simp at h
        · rw [h2] at h
          simp at h
          obtain ⟨hb, hr⟩ := h
          subst hr
          have h4 := ih t2 b2 h2
          simp
          omega

theorem comment_progress (s : List Char) (v : List Char) (r : List Char)
    (h : comment s = some (v, r)) : r.length + 2 ≤ s.length := by
  simp [comment, pOrElse] at h
  rcases hlc : line_comment s with _ | ⟨v2, r2⟩
  · rw [hlc] at h
    simp at h
    simp [block_comment] at h
    rcases hps : pStr (strL "/*") s with _ | ⟨u, r3⟩
    · rw [hps] at h
      simp at h
    · rw [hps] at h
      simp at h
      rcases hbc : bcAux r3.length r3 with _ | ⟨b4, r4⟩
      · rw [hbc] at h
        simp at h
      · rw [hbc] at h
        simp at h
        obtain ⟨hv, hr⟩ := h
        subst hr
        have h1 := bcAux_progress r3.length r3 b4 _ hbc
        have h2 : r3.length + 2 = s.length := by
          cases s with
          | nil => simp [pStr, strL] at hps
          | cons a s2 =>
            cases s2 with
            | nil => simp [pStr, strL] at hps
            | cons b s3 =>
              simp [pStr, strL] at hps
              obtain ⟨ha, hb, hr3⟩ := hps
              subst hr3
              simp
        omega
  · rw [hlc] at h
    simp at h
    obtain ⟨hv, hr⟩ := h
    subst hr
    simp [line_comment] at hlc
    rcases hps : pStr (strL "//") s with _ | ⟨u, r3⟩
    · rw [hps] at hlc
      simp at hlc
    · rw [hps] at hlc
      simp at hlc
      obtain ⟨hv2, hr2⟩ := hlc
      have h1 := length_dropWhile_le (fun c => !decide (c = '\n')) r3
      have h2 : r3.length + 2 = s.length := by
        cases s with
        | nil => simp [pStr, strL] at hps
        | cons a s2 =>
          cases s2 with
          | nil => simp [pStr, strL] at hps
          | cons b s3 =>
            simp [pStr, strL] at hps
            obtain ⟨ha, hb, hr3⟩ := hps
            subst hr3
            simp
      rw [← hr2]
      omega

theorem mcElem_progress (s : List Char) (v : List Char) (r : List Char)
    (h : pPadded comment s = some (v, r)) : r.length < s.length := by
  simp [pPadded] at h
  rcases hc : comment (dropWs s) with _ | ⟨v2, r2⟩
  · rw [hc] at h
    simp at h
  · rw [hc] at h
    simp at h
    obtain ⟨hv, hr⟩ := h
    subst hr
    have h1 := comment_progress (dropWs s) v2 r2 hc
    have h2 := length_dropWhile_le (fun c => wsChar c) r2
    have h3 := length_dropWhile_le (fun c => wsChar c) s
    simp [dropWs] at h1 h2 h3 ⊢
    omega

theorem repAux_stable (p : P α) (hp : ∀ s v r, p s = some (v, r) → r.length < s.length) :
    ∀ (f1 f2 : Nat) (s : List Char), s.length ≤ f1 → s.length ≤ f2 →
      repAux p f1 s = repAux p f2 s := by
  intro f1
  induction f1 with
  | zero =>
    intro f2 s h1 h2
    have hs : s = [] := by
      cases s with
      | nil => rfl
      | cons c t => simp at h1
    subst hs
    have hpn : p [] = none := by
      rcases hpn2 : p [] with _ | ⟨v, r⟩
      · rfl
      · have := hp [] v r hpn2
        simp at this
    rw [repAux_stop p 0 [] hpn, repAux_stop p f2 [] hpn]
  | succ n ih =>
    intro f2 s h1 h2
    rcases hps : p s with _ | ⟨v, r⟩
    · rw [repAux_stop p _ _ hps, repAux_stop p _ _ hps]
    · have hpr := hp s v r hps
      cases f2 with
      | zero =>
        exfalso
        have : s.length = 0 := by omega
        have hs : s = [] := by
          cases s with
          | nil => rfl
          | cons c t => simp at this
        subst hs
        simp at hpr
      | succ m =>
        have := ih m r (by omega) (by omega)
        simp [repAux, hps, this]

theorem mc_dropWs_rem (s : List Char) :
    dropWs (repAux (pPadded comment) (dropWs s).length (dropWs s)).2 =
    dropWs (repAux (pPadded comment) s.length s).2 := by
  rcases hes : pPadded comment s with _ | ⟨v, r⟩
  · have hes2 : pPadded comment (dropWs s) = none := by
      rw [pPadded_dropWs]
      exact hes
    rw [repAux_stop _ _ _ hes2, repAux_stop _ _ _ hes]
    simp [dropWs_idem]
  · have hes2 : pPadded comment (dropWs s) = some (v, r) := by
      rw [pPadded_dropWs]
      exact hes
    have hpr := mcElem_progress s v r hes
    have hpr2 := mcElem_progress (dropWs s) v r hes2
    obtain ⟨m, hm⟩ : ∃ m, s.length = m + 1 := ⟨s.length - 1, by omega⟩
    obtain ⟨q, hq⟩ : ∃ q, (dropWs s).length = q + 1 := ⟨(dropWs s).length - 1, by omega⟩
    rw [hm, hq]
    have hstab := repAux_stable (pPadded comment) mcElem_progress q m r
      (by omega) (by omega)
    simp [repAux, hes, hes2, hstab]

theorem mc_prefix_skip (c : CommentTok) (hc : wfComment c = true) (s : List Char) :
    dropWs (repAux (pPadded comment) (renderComment c ++ s).length
      (renderComment c ++ s)).2 =
    dropWs (repAux (pPadded comment) s.length s).2 := by
  have hstep : pPadded comment (renderComment c ++ s) = some
      (match c with
       | CommentTok.line t => trimChars t
       | CommentTok.block t => trimChars t, dropWs s) := by
    cases c with
    | line t =>
      have hcr := comment_line_render t s (by simpa [wfComment] using hc)
      have hdS : dropWs (strL "//" ++ (t ++ '\n' :: s)) = strL "//" ++ (t ++ '\n' :: s) := rfl
      have harr : renderComment (CommentTok.line t) ++ s = strL "//" ++ (t ++ '\n' :: s) := by
        simp [renderComment, List.append_assoc]
      rw [harr]
      simp [pPadded, hdS, hcr, dropWs_cons_ws _ _ (show wsChar '\n' = true by decide)]
    | block t =>
      have hcr := comment_block_render t s (by simpa [wfComment] using hc)
      have hdS : dropWs (strL "/*" ++ (t ++ '*' :: '/' :: s)) =
          strL "/*" ++ (t ++ '*' :: '/' :: s) := rfl
      have harr : renderComment (CommentTok.block t) ++ s =
          strL "/*" ++ (t ++ '*' :: '/' :: s) := by
        simp [renderComment, List.append_assoc, strL]
      rw [harr]
      simp [pPadded, hdS, hcr]
  have hrc2 : 2 ≤ (renderComment c).length := by
    cases c <;> simp [renderComment, strL]
  obtain ⟨n, hlc⟩ : ∃ n, (renderComment c ++ s).length = n + 1 :=
    ⟨(renderComment c ++ s).length - 1, by simp [List.length_append]; omega⟩
  have hds : (dropWs s).length ≤ n := by
    have h2 := length_dropWhile_le (fun c => wsChar c) s
    have h3 : (renderComment c ++ s).length = (renderComment c).length + s.length := by
      simp [List.length_append]
    simp [dropWs] at h2 ⊢
    omega
  have hstab := repAux_stable (pPadded comment) mcElem_progress n (dropWs s).length
    (dropWs s) hds (Nat.le_refl _)
  rw [hlc]
  simp [repAux, hstep, hstab]
  exact mc_dropWs_rem s

/-- Claim C2 helper: a well-formed comment prefixed to a field is
discarded, leaving the parse unchanged. -/
theorem field_comment_invariant (cfg : Config) (c : CommentTok) (s : List Char)
    (hc : wfComment c = true) :
    field cfg (renderComment c ++ s) = field cfg s := by
  have hmc := mc_prefix_skip c hc s
  simp only [field, pPaddedBy, pThenIgnore, pIgnoreThen, multi_comment, pRepeated, pMap,
    pPadded]
  rw [hmc]

theorem bufRun_concat (ops : List BufOp) (b : List Char) :
    bufRun ops b = some (b ++ (ops.map bufText).flatten) := by
  induction ops generalizing b with
  | nil => simp [bufRun]
  | cons op t ih =>
    cases op <;> simp [bufRun, bufApply, ih, bufText, List.append_assoc]


/-! ## The claims -/

/-- C1, counterexample: the body `\x7ba// \x7d\n\x7d` is brace-balanced under
the spec's comment-aware count (`specBalancedBlock`), yet `rpc` treats the
`\x7d` inside the line comment's text as the closing brace: it stops early,
leaving the real closing brace unconsumed, and a whole-chunk parse of the
same text fails.  The `none_of("\x7b\x7d")` body run swallows the `//` opener,
so the comment alternative of `expr_block` never sees it. -/
theorem c1_comment_brace_desync_cex :
    specBalancedBlock (strL "\x7ba// \x7d\n\x7d") = true ∧
    rpc ⟨[]⟩ (strL "fn f() \x7ba// \x7d\n\x7d") = some (⟨strL "f", [], none⟩, [rbrace]) ∧
    parse_chunk ⟨[]⟩ (strL "fn f() \x7ba// \x7d\n\x7d") = none :=
  ⟨by decide, rfl, rfl⟩

/-- C1 (amended): for every RPC whose rendered body block is well formed in
the sense of `wfEBs` — nested brace blocks and line/block comments whose
text may contain unmatched braces, with the restriction that a plain body
text run is followed by a nested block or is last (a comment directly after
body text is the counterexample's desynchronization) — `rpc` succeeds,
skips the body exactly, and returns the Rpc determined by the signature
alone: the body items `l` do not appear in the result. -/
theorem c1_rpc_wellformed_body (cfg : Config) (n : List Char) (ps : List FieldSpec)
    (r : Option FieldSpec) (l : EBs) (rest : List Char)
    (hn : wfIdent n = true) (hps : ps.all wfFieldSpec = true)
    (hr : r.all (fun f => primPairs.contains (f.spell, f.fval)) = true)
    (hl : wfEBs l = true) (hrest : hB (fun c => !wsChar c) rest = true) :
    rpc cfg (strL "fn " ++ (n ++ '(' :: (renderFields ps ++ ')' ::
        (retRender r ++ lbrace :: (renderEBs l ++ rbrace :: rest))))) =
      some (⟨n, fieldVals ps, r.map fun f => f.fval⟩, rest) := by
  have hsig := rpcSig_render cfg n ps r (renderEBs l ++ rbrace :: rest) hn hps hr
  exact rpc_body_skip cfg _ ((n, fieldVals ps), r.map fun f => f.fval) l rest hl hrest hsig

/-- C1 witness: `fn f(a:u32)->u8 \x7bx \x7by\x7d/*\x7d*/\x7d` — a body with plain text, a
nested block and a block comment whose text is an unmatched `\x7d` — parses
to the Rpc of its signature with nothing left over. -/
theorem c1_rpc_wellformed_body_wit :
    wfEBs (EBs.cons (EB.bodyE (strL "x ")) (EBs.cons (EB.nestedE (EBs.cons (EB.bodyE (strL "y"))
        EBs.nil)) (EBs.cons (EB.commentE (CommentTok.block (strL "\x7d"))) EBs.nil))) = true ∧
    rpc ⟨[]⟩ (strL "fn " ++ (strL "f" ++ '(' :: (renderFields [⟨strL "a", strL "u32", Ty.u32⟩] ++ ')' ::
        (retRender (some ⟨strL "r", strL "u8", Ty.u8⟩) ++ lbrace ::
          (renderEBs (EBs.cons (EB.bodyE (strL "x ")) (EBs.cons (EB.nestedE (EBs.cons (EB.bodyE (strL "y"))
            EBs.nil)) (EBs.cons (EB.commentE (CommentTok.block (strL "\x7d"))) EBs.nil))) ++ rbrace :: []))))) =
      some (⟨strL "f", fieldVals [⟨strL "a", strL "u32", Ty.u32⟩],
        (some (⟨strL "r", strL "u8", Ty.u8⟩ : FieldSpec)).map fun f => f.fval⟩, []) :=
  ⟨by decide, c1_rpc_wellformed_body ⟨[]⟩ (strL "f") [⟨strL "a", strL "u32", Ty.u32⟩]
    (some ⟨strL "r", strL "u8", Ty.u8⟩)
    (EBs.cons (EB.bodyE (strL "x ")) (EBs.cons (EB.nestedE (EBs.cons (EB.bodyE (strL "y"))
      EBs.nil)) (EBs.cons (EB.commentE (CommentTok.block (strL "\x7d"))) EBs.nil))) []
    (by decide) (by decide) (by decide) (by decide) (by decide)⟩

/-- C2, counterexample: `struct S \x7b\x7d` parses as a chunk, but inserting the
block comment `/*c*/` between the `struct` keyword and the name makes the
chunk fail: the keyword is followed by `text::whitespace().at_least(1)`,
not by a comment-tolerant pad, so not every token boundary admits a
comment. -/
theorem c2_dto_keyword_comment_cex :
    parse_chunk ⟨[]⟩ (strL "struct S \x7b\x7d") = some [Child.dtoC ⟨strL "S", []⟩] ∧
    parse_chunk ⟨[]⟩ (strL "struct /*c*/ S \x7b\x7d") = none :=
  ⟨rfl, rfl⟩

/-- C2 (amended): at positions the grammar pads with `multi_comment` —
here the `field` rule, which is `padded_by(multi_comment())` on both
sides, covering parameter and field lists — inserting any well-formed
line or block comment in front leaves the parse result exactly equal:
`field` of the comment-prefixed text is `field` of the original text.
Comment insertion is result-preserving only at these multi-comment-padded
boundaries, not between arbitrary tokens. -/
theorem c2_field_comment_transparent (cfg : Config) (c : CommentTok) (s : List Char)
    (hc : wfComment c = true) :
    field cfg (renderComment c ++ s) = field cfg s :=
  field_comment_invariant cfg c s hc

/-- C2 witness: prefixing `a:u8` with the block comment `/*c*/` leaves the
parsed field unchanged. -/
theorem c2_field_comment_transparent_wit :
    wfComment (CommentTok.block (strL "c")) = true ∧
    field ⟨[]⟩ (renderComment (CommentTok.block (strL "c")) ++ strL "a:u8") =
      field ⟨[]⟩ (strL "a:u8") :=
  ⟨by decide, c2_field_comment_transparent ⟨[]⟩ (CommentTok.block (strL "c")) (strL "a:u8")
    (by decide)⟩

/-- C3 (code bug): with the single user-type rule `i32 → int`, the input
`i32,b` matches the rule — the earlier-declared rule wins and no input is
consumed on failed candidates as claimed — but the parser returns the
remainder `b`, not `,b`: the custom parser's `let _ = input.next()` after
a successful literal match consumes one character beyond the matched
pattern's text, so the separator is lost. -/
theorem c3_user_ty_extra_char :
    user_ty ⟨[⟨strL "i32", strL "int"⟩]⟩ (strL "i32,b") = some (strL "int", strL "b") ∧
    strL "i32,b" = strL "i32" ++ strL ",b" ∧ strL "b" ≠ strL ",b" :=
  ⟨rfl, rfl, by decide⟩

/-- C4, counterexample: with a first chunk `struct a \x7b\x7d` and a second
chunk `?` that fails the grammar, `Rust::parse` returns an error — but
the caller-owned builder has already merged the first chunk's DTO: its
api is `[a]`, not empty.  The merge happens per chunk before the failing
chunk's early return, so "no partial model is merged for any chunk, even
chunks processed before the failing one" does not hold of the builder. -/
theorem c4_partial_merge_cex :
    rust_parse ⟨[]⟩ [⟨none, strL "struct a \x7b\x7d"⟩, ⟨none, strL "?"⟩] ⟨[], []⟩ =
      (⟨[], [Child.dtoC ⟨strL "a", []⟩]⟩, some ()) ∧
    [Child.dtoC (⟨strL "a", []⟩ : Dto)] ≠ [] :=
  ⟨rfl, by simp⟩

/-- C4 (amended): the fatal, all-or-nothing part of the claim holds — if
any chunk's text fails to parse to end-of-input, the whole operation
returns an error, whatever the starting builder: no success result (and
hence no model) is produced. -/
theorem c4_chunk_failure_is_error (cfg : Config) (chunks : List Chunk) (b : Builder)
    (ch : Chunk) (hmem : ch ∈ chunks) (hfail : parse_chunk cfg ch.data = none) :
    (rust_parse cfg chunks b).2.isSome = true := by
  induction chunks generalizing b with
  | nil => simp at hmem
  | cons c t ih =>
    rcases List.mem_cons.mp hmem with rfl | hmem2
    · simp [rust_parse, hfail]
    · cases hpc : parse_chunk cfg c.data with
      | none => simp [rust_parse, hpc]
      | some cs => simp only [rust_parse, hpc]; exact ih _ hmem2

/-- C4 witness: a single failing chunk `?` makes the parse return an
error. -/
theorem c4_chunk_failure_is_error_wit :
    (⟨none, strL "?"⟩ : Chunk) ∈ [(⟨none, strL "?"⟩ : Chunk)] ∧
    parse_chunk ⟨[]⟩ (Chunk.data ⟨none, strL "?"⟩) = none ∧
    (rust_parse ⟨[]⟩ [⟨none, strL "?"⟩] ⟨[], []⟩).2.isSome = true :=
  ⟨List.mem_singleton.mpr rfl, rfl,
    c4_chunk_failure_is_error ⟨[]⟩ [⟨none, strL "?"⟩] ⟨[], []⟩ ⟨none, strL "?"⟩
      (List.mem_singleton.mpr rfl) rfl⟩

/-- C5: a path ending in the reserved index file `mod.rs` or `lib.rs`
infers the parent directory path; any other final component has its
extension stripped in place; and a DTO in a chunk at `a/b/mod.rs` is
reachable at `a.b.<name>` — the full parse places it under the child
namespaces `a.b`, where lookup finds it, and nothing is reachable under
`a.b.mod`. -/
theorem c5_namespace_path_reach (cfg : Config) (q : List (List Char)) (last a b n : List Char)
    (hn : wfIdent n = true) (h1 : last ≠ strL "mod.rs") (h2 : last ≠ strL "lib.rs") :
    namespace_path (q ++ [strL "mod.rs"]) = q ∧
    namespace_path (q ++ [strL "lib.rs"]) = q ∧
    namespace_path (q ++ [last]) = q ++ [stripExt last] ∧
    (rust_parse cfg [⟨some [a, b, strL "mod.rs"],
        renderDecls (Decls.cons (Decl.dtoD n []) Decls.nil)⟩] ⟨[], []⟩).2 = none ∧
    (find_namespace (rust_parse cfg [⟨some [a, b, strL "mod.rs"],
        renderDecls (Decls.cons (Decl.dtoD n []) Decls.nil)⟩] ⟨[], []⟩).1.api
      [a, b]).bind (dtoNamed n) = some ⟨n, []⟩ ∧
    find_namespace (rust_parse cfg [⟨some [a, b, strL "mod.rs"],
        renderDecls (Decls.cons (Decl.dtoD n []) Decls.nil)⟩] ⟨[], []⟩).1.api
      [a, b, strL "mod"] = none := by
  have hl : wfDecls (Decls.cons (Decl.dtoD n []) Decls.nil) = true := by
    simp [wfDecls, wfDecl, hn]
  have hp := parse_chunk_render cfg (Decls.cons (Decl.dtoD n []) Decls.nil) hl
  have hnp : namespace_path [a, b, strL "mod.rs"] = [a, b] := rfl
  refine ⟨?_, ?_, ?_, ?_⟩
  · simp [namespace_path]
  · simp [namespace_path]
  · simp [namespace_path, h1, h2]
  · simp only [rust_parse, hnp, hp, List.nil_append, valDecls, valDecl, fieldVals,
      List.map_nil, mergeAt, findNs, find_namespace, dtoNamed, Option.bind]
    simp [mergeAt, findNs, find_namespace, dtoNamed]

/-- C5 witness: `d/mod.rs` and `d/lib.rs` infer `d`, `d/x.rs` infers
`d/x`, and a DTO `S` in a chunk at `a/b/mod.rs` is found at `a.b.S` and
not under `a.b.mod`. -/
theorem c5_namespace_path_reach_wit :
    wfIdent (strL "S") = true ∧ strL "x.rs" ≠ strL "mod.rs" ∧ strL "x.rs" ≠ strL "lib.rs" ∧
    (namespace_path ([strL "d"] ++ [strL "mod.rs"]) = [strL "d"] ∧
     namespace_path ([strL "d"] ++ [strL "lib.rs"]) = [strL "d"] ∧
     namespace_path ([strL "d"] ++ [strL "x.rs"]) = [strL "d"] ++ [stripExt (strL "x.rs")] ∧
     (rust_parse ⟨[]⟩ [⟨some [strL "a", strL "b", strL "mod.rs"],
         renderDecls (Decls.cons (Decl.dtoD (strL "S") []) Decls.nil)⟩] ⟨[], []⟩).2 = none ∧
     (find_namespace (rust_parse ⟨[]⟩ [⟨some [strL "a", strL "b", strL "mod.rs"],
         renderDecls (Decls.cons (Decl.dtoD (strL "S") []) Decls.nil)⟩] ⟨[], []⟩).1.api
       [strL "a", strL "b"]).bind (dtoNamed (strL "S")) = some ⟨strL "S", []⟩ ∧
     find_namespace (rust_parse ⟨[]⟩ [⟨some [strL "a", strL "b", strL "mod.rs"],
         renderDecls (Decls.cons (Decl.dtoD (strL "S") []) Decls.nil)⟩] ⟨[], []⟩).1.api
       [strL "a", strL "b", strL "mod"] = none) :=
  ⟨by decide, by decide, by decide,
    c5_namespace_path_reach ⟨[]⟩ [strL "d"] (strL "x.rs") (strL "a") (strL "b") (strL "S")
      (by decide) (by decide) (by decide)⟩

/-- C6: for each primitive numeric keyword, the string keyword and the
byte-sequence keyword, `ty` parses the reference-marked spelling (`&` in
front) to exactly the same result as the plain value spelling, namely the
pair's `Type` variant with the whole spelling consumed; this holds for
every user-type configuration since the keyword alternatives precede the
user-type fallback in the choice. -/
theorem c6_ref_spelling_same (cfg : Config) (pr : List Char × Ty) (hpr : pr ∈ refPairs) :
    ty cfg ('&' :: pr.1) = ty cfg pr.1 ∧ ty cfg pr.1 = some (pr.2, []) := by
  fin_cases hpr <;> exact ⟨rfl, rfl⟩

/-- C6 witness: `&u8` and `u8` both parse to the unsigned-8 variant. -/
theorem c6_ref_spelling_same_wit :
    (strL "u8", Ty.u8) ∈ refPairs ∧
    (ty ⟨[]⟩ ('&' :: (strL "u8", Ty.u8).1) = ty ⟨[]⟩ (strL "u8", Ty.u8).1 ∧
     ty ⟨[]⟩ (strL "u8", Ty.u8).1 = some ((strL "u8", Ty.u8).2, [])) :=
  ⟨by decide, c6_ref_spelling_same ⟨[]⟩ (strL "u8", Ty.u8) (by decide)⟩

/-- C7: `struct S \x7b a: i32, b: f32 \x7d` parses under `dto` — for every
user-type configuration — to the Dto named `S` with exactly the fields
`a : i32` and `b : f32` in declaration order, consuming the whole text. -/
theorem c7_dto_example_parse (cfg : Config) :
    dto cfg (strL "struct S \x7b a: i32, b: f32 \x7d") =
      some (⟨strL "S", [⟨strL "a", Ty.i32⟩, ⟨strL "b", Ty.f32⟩]⟩, []) := rfl

/-- C8: a forward namespace declaration `mod <name>;` parses to the
namespace with empty children, and a bodied declaration `mod <name>
\x7b ... \x7d` parses to the namespace whose children are exactly the body's
Dto/Rpc/Namespace declarations in order, recursively (`body : Option
Decls` covers both shapes; `nsBodyVal` is `[]` for `none` and the body's
child values otherwise). -/
theorem c8_namespace_decl_shape (cfg : Config) (nm : List Char) (body : Option Decls)
    (hwf : wfDecl (Decl.nsD nm body) = true) :
    namespaceP cfg (renderDecl (Decl.nsD nm body)) = some ((nm, nsBodyVal body), []) := by
  have := namespaceP_render cfg nm body [] hwf (by decide)
  simpa using this

/-- C8 witness: `mod m \x7bstruct S \x7b\x7d\x7d` parses to namespace `m` with the
single DTO child `S`. -/
theorem c8_namespace_decl_shape_wit :
    wfDecl (Decl.nsD (strL "m") (some (Decls.cons (Decl.dtoD (strL "S") []) Decls.nil))) = true ∧
    namespaceP ⟨[]⟩ (renderDecl (Decl.nsD (strL "m")
        (some (Decls.cons (Decl.dtoD (strL "S") []) Decls.nil)))) =
      some ((strL "m", nsBodyVal (some (Decls.cons (Decl.dtoD (strL "S") []) Decls.nil))), []) :=
  ⟨by decide, c8_namespace_decl_shape ⟨[]⟩ (strL "m")
    (some (Decls.cons (Decl.dtoD (strL "S") []) Decls.nil)) (by decide)⟩

/-- C9, counterexample: `_t` is accepted in full by `type_name` although
its first character `_` is neither a letter nor the reference marker —
the rule's first-character set is letters plus all of `_&<>`, wider than
the claim states. -/
theorem c9_type_name_underscore_cex :
    type_name (strL "_t") = some (strL "_t", []) ∧
    ¬('_'.isAlpha = true ∨ '_' = '&') :=
  ⟨rfl, by decide⟩

/-- C9 (amended): every string `type_name` accepts (the value it returns,
on any input) starts with a letter or one of `_`, `&`, `<`, `>`; every
subsequent character is a letter, digit or underscore; in particular the
reference marker `&` never occurs in a non-leading position of an
accepted string. -/
theorem c9_type_name_chars (s v r : List Char) (h : type_name s = some (v, r)) :
    ∃ c t, v = c :: t ∧
      (c.isAlpha = true ∨ c = '_' ∨ c = '&' ∨ c = '<' ∨ c = '>') ∧
      ∀ d ∈ t, (d.isAlphanum = true ∨ d = '_') ∧ d ≠ '&' := by
  cases s with
  | nil => simp [type_name] at h
  | cons c t =>
    by_cases hc : (c.isAlpha || c = '_' || c = '&' || c = '<' || c = '>') = true
    · simp only [type_name, hc, if_pos] at h
      simp only [Option.some.injEq, Prod.mk.injEq] at h
      obtain ⟨hv, hr⟩ := h
      refine ⟨c, t.takeWhile identChar, hv.symm, ?_, ?_⟩
      · simpa [Bool.or_assoc, Bool.or_eq_true, decide_eq_true_eq] using hc
      · intro d hd
        have hid : identChar d = true := List.mem_takeWhile_imp hd
        simp [identChar, Bool.or_eq_true, decide_eq_true_eq] at hid
        refine ⟨hid, ?_⟩
        rintro rfl
        rcases hid with h1 | h1 <;> simp at h1
    · simp only [type_name] at h
      rw [if_neg hc] at h
      exact absurd h (by simp)

/-- C9 witness: `&Ty_1` is accepted in full and has the characterized
shape. -/
theorem c9_type_name_chars_wit :
    type_name (strL "&Ty_1") = some (strL "&Ty_1", []) ∧
    (∃ c t, strL "&Ty_1" = c :: t ∧
      (c.isAlpha = true ∨ c = '_' ∨ c = '&' ∨ c = '<' ∨ c = '>') ∧
      ∀ d ∈ t, (d.isAlphanum = true ∨ d = '_') ∧ d ≠ '&') :=
  ⟨rfl, c9_type_name_chars (strL "&Ty_1") (strL "&Ty_1") [] rfl⟩

/-- C10: every finite sequence of `write_str`/`write`/`newline` calls on a
fresh Buffer succeeds (`some`, the embedding of every call returning
`Ok`), and the final contents are exactly the concatenation, in call
order, of each call's contributed text: the written string, the written
character, or one newline. -/
theorem c10_buffer_round_trip (ops : List BufOp) :
    bufRun ops [] = some ((ops.map bufText).flatten) := by
  simpa using bufRun_concat ops []

end Apyxl
